import Mathlib

set_option maxRecDepth 8000

/-!
Verification of the commit-history formatter (keep_a_changelog.py) and the
pull-request title checker (check_pr_title.py) from the python-scripts
repository.  The Python code is shallowly embedded: strings are Lean
strings (lists of characters), the regular expressions of the source are
translated into executable character-level matchers, fallible parsing is
modelled with Option/Except, and the process boundary (exit codes, the
output file) is modelled by the result type of mainRun.
-/

namespace PyScripts

/-! Character classes of the source's regular expressions.  Python's
regular expressions are Unicode-aware: the class written backslash-d
matches every Unicode decimal digit (category Nd) and the class written
backslash-s every Unicode whitespace character, while explicitly written
ranges such as [1-9], [0-5] or [0-9a-zA-Z-] stay ASCII.  The Nd and
whitespace tables below are those of the CPython (Unicode database) this
code runs under. -/

/-- Start code points of the sixty-five runs of ten consecutive Unicode
decimal digits (category Nd) beyond the ASCII run, each run carrying the
digit values zero to nine in order. -/
def ndStarts : List Nat :=
  [0x660, 0x6f0, 0x7c0, 0x966, 0x9e6, 0xa66, 0xae6, 0xb66, 0xbe6, 0xc66,
   0xce6, 0xd66, 0xde6, 0xe50, 0xed0, 0xf20, 0x1040, 0x1090, 0x17e0, 0x1810,
   0x1946, 0x19d0, 0x1a80, 0x1a90, 0x1b50, 0x1bb0, 0x1c40, 0x1c50, 0xa620, 0xa8d0,
   0xa900, 0xa9d0, 0xa9f0, 0xaa50, 0xabf0, 0xff10, 0x104a0, 0x10d30, 0x11066, 0x110f0,
   0x11136, 0x111d0, 0x112f0, 0x11450, 0x114d0, 0x11650, 0x116c0, 0x11730, 0x118e0, 0x11950,
   0x11c50, 0x11d50, 0x11da0, 0x16a60, 0x16ac0, 0x16b50, 0x1d7ce, 0x1d7d8, 0x1d7e2, 0x1d7ec,
   0x1d7f6, 0x1e140, 0x1e2f0, 0x1e950, 0x1fbf0]

def ndLookup (n : Nat) : List Nat → Option Nat
  | [] => none
  | s :: rest => if s ≤ n ∧ n < s + 10 then some (n - s) else ndLookup n rest

/-- Value of a Unicode decimal digit: the class matched by the
regular-expression class backslash-d of Python and converted by int().
ASCII digits are the first run; the remaining runs are tabulated in
ndStarts. -/
def digitVal? (c : Char) : Option Nat :=
  if c.toNat < 0x660 then
    (if 48 ≤ c.toNat ∧ c.toNat ≤ 57 then some (c.toNat - 48) else none)
  else ndLookup c.toNat ndStarts

/-- Unicode decimal digit (the regular-expression class backslash-d). -/
def isDig (c : Char) : Bool := (digitVal? c).isSome

/-- ASCII digit: the explicitly written class [0-9] of the source
patterns. -/
def isDigA (c : Char) : Bool := decide (48 ≤ c.toNat ∧ c.toNat ≤ 57)

/-- ASCII non-zero digit: the explicitly written class [1-9] of the
source patterns. -/
def isNz (c : Char) : Bool := decide (49 ≤ c.toNat ∧ c.toNat ≤ 57)

def isAlHy (c : Char) : Bool :=
  (decide ('a' ≤ c) && decide (c ≤ 'z')) || (decide ('A' ≤ c) && decide (c ≤ 'Z')) || decide (c = '-')

/-- The explicitly written class [0-9a-zA-Z-] of the source pattern
(ASCII only). -/
def isIdChar (c : Char) : Bool := isDigA c || isAlHy c

/-- A character that can occur in a pre-release identifier of the source
pattern: a Unicode decimal digit (from the backslash-d prefix of the
alternative with a letter or hyphen) or an ASCII identifier character. -/
def isPreChar (c : Char) : Bool := isDig c || isAlHy c

/-- A pre-release character or the dot separating identifiers. -/
def isPreDot (c : Char) : Bool := isPreChar c || decide (c = '.')

/-- The characters matched by the regular-expression class backslash-s of
Python (equally the set stripped by str.strip), as tabulated by the
CPython this code runs under. -/
def pySpace (c : Char) : Bool :=
  decide ((9 ≤ c.toNat ∧ c.toNat ≤ 13) ∨ (28 ≤ c.toNat ∧ c.toNat ≤ 32)
    ∨ c.toNat = 0x85 ∨ c.toNat = 0xa0 ∨ c.toNat = 0x1680
    ∨ (0x2000 ≤ c.toNat ∧ c.toNat ≤ 0x200a)
    ∨ c.toNat = 0x2028 ∨ c.toNat = 0x2029 ∨ c.toNat = 0x202f
    ∨ c.toNat = 0x205f ∨ c.toNat = 0x3000)

/-- Splitting a character list on every occurrence of a separator, the way
Python's str.split with a one-character separator behaves (an empty string
yields one empty field). -/
def splitOnChar (sep : Char) : List Char → List (List Char)
  | [] => [[]]
  | c :: rest =>
    if c = sep then [] :: splitOnChar sep rest
    else
      match splitOnChar sep rest with
      | [] => [[c]]
      | r :: rs => (c :: r) :: rs

/-- Model of Python's str.split(sep) for a one-character separator. -/
def pySplit (sep : Char) (s : String) : List String :=
  (splitOnChar sep s.data).map String.mk

/-- Numeric version component of the source pattern: the alternation
written 0 or [1-9] followed by backslash-d-star, i.e. the literal 0
alone, or an ASCII non-zero digit followed by any Unicode decimal
digits. -/
def numOk : List Char → Bool
  | [] => false
  | c :: rest => (decide (c = '0') && rest.isEmpty) || (isNz c && rest.all isDig)

/-- Pre-release identifier of the source pattern: the alternation of the
numeric forms above with the form written backslash-d-star then
[a-zA-Z-] then [0-9a-zA-Z-]-star.  The digit prefix of the third
alternative is a run of Unicode decimal digits, while the letter and the
following identifier characters are ASCII; the digit classes being
disjoint from [a-zA-Z-], the digit prefix is exactly the maximal digit
prefix of the identifier. -/
def preChunkOk (cs : List Char) : Bool :=
  numOk cs ||
    (match cs.dropWhile isDig with
     | l :: ws => isAlHy l && ws.all isIdChar
     | [] => false)

/-- Build-metadata identifier of the source pattern: [0-9a-zA-Z-]+
(ASCII only). -/
def buildChunkOk (cs : List Char) : Bool := cs.all isIdChar && !cs.isEmpty

/-- Dot-separated identifier list check shared by the pre-release and the
build-metadata parts of is_semver_tag. -/
def chunksOk (p : List Char → Bool) (region : List Char) : Bool :=
  (splitOnChar '.' region).all p

/-- Expect one fixed character, consuming it. -/
def expectCh (c : Char) : List Char → Option (List Char)
  | [] => none
  | d :: r => if d = c then some r else none

/-- Scanner for one numeric version component: the regex alternation
0|[1-9][0-9]* is greedy and the character after it is never a digit, so it
consumes the maximal digit prefix. -/
def scanNum (cs : List Char) : Option (List Char) :=
  if numOk (cs.takeWhile isDig) then some (cs.dropWhile isDig) else none

/-- Scanner for major.minor.patch of the version core of is_semver_tag. -/
def scanCore (cs : List Char) : Option (List Char) :=
  match scanNum cs with
  | none => none
  | some r1 =>
    match expectCh '.' r1 with
    | none => none
    | some r2 =>
      match scanNum r2 with
      | none => none
      | some r3 =>
        match expectCh '.' r3 with
        | none => none
        | some r4 => scanNum r4

/-- Scanner for what may follow the version core in is_semver_tag: nothing,
a hyphen-led pre-release list (possibly followed by plus-led build
metadata), or plus-led build metadata. -/
def scanTail (rest : List Char) : Bool :=
  match rest with
  | [] => true
  | c :: r =>
    if c = '-' then
      let region := r.takeWhile isPreDot
      let r2 := r.dropWhile isPreDot
      chunksOk preChunkOk region &&
        (match r2 with
         | [] => true
         | c2 :: r3 => decide (c2 = '+') && chunksOk buildChunkOk r3)
    else if c = '+' then chunksOk buildChunkOk r
    else false

/-- Optional leading letter v of a semver tag. -/
def stripV : List Char → List Char
  | [] => []
  | c :: r => if c = 'v' then r else c :: r

/-- Scanner for the body of the semver regex after the optional v. -/
def scanAfterV (cs : List Char) : Bool :=
  match scanCore cs with
  | none => false
  | some rest => scanTail rest

/-- Scanner for the full semver regex of the source, up to the final
end-anchor. -/
def semverScan (cs : List Char) : Bool := scanAfterV (stripV cs)

/-- Embedding of is_semver_tag (keep_a_changelog.py, lines 49-59): the
Python SEMVER_PATTERN matched with re.match.  The pattern is anchored with
the dollar anchor, which in Python matches at the end of the string and
also just before one trailing newline, hence the second disjunct. -/
def is_semver_tag (s : String) : Bool :=
  semverScan s.data ||
    (match s.data.getLast? with
     | some c => decide (c = '\n') && semverScan s.data.dropLast
     | none => false)

/-- Earliest-separator split: the part before the first occurrence of sep,
and what follows it when sep occurs at all. -/
def splitFirst (sep : Char) (cs : List Char) : List Char × Option (List Char) :=
  (cs.takeWhile (fun c => !decide (c = sep)),
   match cs.dropWhile (fun c => !decide (c = sep)) with
   | [] => none
   | _ :: r => some r)

/-- The semantic-version grammar the source pattern defines: after the
optional leading v, the part before the first plus sign splits at its
first hyphen into the version core and an optional pre-release identifier
list; the core is exactly three dot-separated numeric components (numOk);
the pre-release identifiers satisfy preChunkOk and the optional part
after the first plus sign is a dot-separated build-metadata identifier
list.  It differs from the specification's grammar below only in the
positions the pattern writes backslash-d, where any Unicode decimal digit
is admitted. -/
def semver_grammarU_core (cs : List Char) : Bool :=
  let m := splitFirst '+' cs
  let k := splitFirst '-' m.1
  (match splitOnChar '.' k.1 with
   | [a, b, c] => numOk a && numOk b && numOk c
   | _ => false)
  && (match k.2 with
      | none => true
      | some p => chunksOk preChunkOk p)
  && (match m.2 with
      | none => true
      | some b => chunksOk buildChunkOk b)

/-- Whole-string form of the source grammar. -/
def semver_grammarU (s : String) : Bool := semver_grammarU_core (stripV s.data)

/-- Numeric version component as the specification words it: non-empty,
ordinary (ASCII) digits only, no leading zero unless the literal 0. -/
def numOkA : List Char → Bool
  | [] => false
  | c :: rest => isDigA c && rest.all isDigA && (decide (c ≠ '0') || rest.isEmpty)

/-- Pre-release identifier as the specification words it: a non-empty
alphanumeric-or-hyphen word that, when purely numeric, has no leading
zero. -/
def preChunkOkA (cs : List Char) : Bool :=
  (cs.all isIdChar && !cs.isEmpty) && (!cs.all isDigA || numOkA cs)

/-- Semantic-version grammar transcribed from the specification's words
(section 4.2): after the optional leading v, the part before the first
plus sign splits at its first hyphen into the version core and an optional
pre-release identifier list; the core is exactly three dot-separated
non-negative integers without leading zeros; the optional part after the
first plus sign is a dot-separated build-metadata identifier list. -/
def semver_grammar_core (cs : List Char) : Bool :=
  let m := splitFirst '+' cs
  let k := splitFirst '-' m.1
  (match splitOnChar '.' k.1 with
   | [a, b, c] => numOkA a && numOkA b && numOkA c
   | _ => false)
  && (match k.2 with
      | none => true
      | some p => chunksOk preChunkOkA p)
  && (match m.2 with
      | none => true
      | some b => chunksOk buildChunkOk b)

/-- Whole-string semantic-version grammar from the specification's words:
the entire string (after an optional leading v) must belong to the
grammar. -/
def semver_grammar (s : String) : Bool := semver_grammar_core (stripV s.data)

/-! Embedding of check_pr_title.py. -/

/-- Embedding of check_character_set (check_pr_title.py, lines 31-40): the
regex [^\x00-\x7F] collects the characters outside the ASCII range; the
check passes when none is found. -/
def check_character_set (text : String) : Bool :=
  let non_ascii_chars := text.data.filter (fun c => decide (127 < c.toNat))
  non_ascii_chars.isEmpty

/-- Embedding of check_pr_title (check_pr_title.py, lines 43-52) as a map
from the optional PR_TITLE environment value to the process exit status. -/
def check_pr_title (title : Option String) : Nat :=
  match title with
  | none => 1
  | some t => if check_character_set t then 0 else 1

/-! Embedding of the commit-record data model and the parser of
keep_a_changelog.py. -/

/-- Embedding of the CommitInfo dataclass (keep_a_changelog.py, lines
30-46). -/
structure CommitInfo where
  commit_hash : String
  message : String
  date_str : String
  tags : List String
deriving DecidableEq

/-- Failure modes of parse_git_logs: the uncaught Python IndexError from
positional indexing into the split line, and the ValueError raised for an
unparseable date (the DateFormatError of the specification), carrying the
offending date string. -/
inductive ParseErr where
  | indexError : ParseErr
  | dateFormatError : String → ParseErr
deriving DecidableEq

/-- Datetime value produced by datetime.strptime with format
"%Y-%m-%d %H:%M:%S %z": wall-clock fields plus the UTC offset in
seconds. -/
structure DateTimeTz where
  year : Nat
  month : Nat
  day : Nat
  hour : Nat
  minute : Nat
  second : Nat
  offSec : Int
deriving DecidableEq

def digitChar (n : Nat) : Char :=
  if n = 0 then '0' else if n = 1 then '1' else if n = 2 then '2' else if n = 3 then '3'
  else if n = 4 then '4' else if n = 5 then '5' else if n = 6 then '6' else if n = 7 then '7'
  else if n = 8 then '8' else '9'

/-- Two-digit zero-padded decimal rendering (used both by the strptime
model and by str(date)). -/
def pad2 (n : Nat) : List Char := [digitChar (n / 10), digitChar (n % 10)]

/-- Four-digit zero-padded decimal rendering. -/
def pad4 (n : Nat) : List Char :=
  [digitChar (n / 1000), digitChar (n / 100 % 10), digitChar (n / 10 % 10), digitChar (n % 10)]

/-- Exactly four digits (the %Y directive of strptime). -/
def p4 : List Char → Option (Nat × List Char)
  | a :: b :: c :: d :: r =>
    (match digitVal? a, digitVal? b, digitVal? c, digitVal? d with
     | some w, some x, some y, some z => some (1000 * w + 100 * x + 10 * y + z, r)
     | _, _, _, _ => none)
  | _ => none

/-- Exactly two digits (used inside the %z directive of strptime). -/
def p2exact : List Char → Option (Nat × List Char)
  | a :: b :: r =>
    (match digitVal? a, digitVal? b with
     | some x, some y => some (10 * x + y, r)
     | _, _ => none)
  | _ => none

/-- Value of an ASCII digit in the explicitly written class [lo..hi] of a
_strptime pattern such as [1-9] or [0-5]; positions written backslash-d
use digitVal? instead. -/
def aVal? (lo hi : Nat) (c : Char) : Option Nat :=
  if 48 + lo ≤ c.toNat ∧ c.toNat ≤ 48 + hi then some (c.toNat - 48) else none

/-- Two-digit-preferred alternation of a _strptime numeric directive: the
two-digit alternatives of the pattern come first and, the character after
the directive being a literal separator or whitespace (never a digit), a
locally matching two-digit reading is never backtracked into the final
one-digit alternative. -/
def alt2or1 (two : Char → Char → Option Nat) (one : Char → Option Nat) :
    List Char → Option (Nat × List Char)
  | a :: b :: r =>
    (match two a b with
     | some v => some (v, r)
     | none =>
       match one a with
       | some v => some (v, b :: r)
       | none => none)
  | [a] =>
    (match one a with
     | some v => some (v, [])
     | none => none)
  | [] => none

/-- Two-digit alternatives of the %m directive, pattern
1[0-2]|0[1-9] (all classes ASCII). -/
def monthTwo (a b : Char) : Option Nat :=
  if a = '1' then (aVal? 0 2 b).map (fun y => 10 + y)
  else if a = '0' then aVal? 1 9 b
  else none

/-- The %m directive of _strptime: 1[0-2]|0[1-9]|[1-9]. -/
def pMonth : List Char → Option (Nat × List Char) := alt2or1 monthTwo (aVal? 1 9)

/-- Two-digit alternatives of the %d directive, pattern
3[01]|[12]backslash-d|0[1-9]: the second digit after 1 or 2 may be any
Unicode decimal digit, the other classes are ASCII. -/
def dayTwo (a b : Char) : Option Nat :=
  if a = '3' then (aVal? 0 1 b).map (fun y => 30 + y)
  else if a = '1' ∨ a = '2' then (digitVal? b).map (fun y => 10 * (a.toNat - 48) + y)
  else if a = '0' then aVal? 1 9 b
  else none

/-- The %d directive of _strptime: 3[01]|[12]backslash-d|0[1-9]|[1-9]. -/
def pDay : List Char → Option (Nat × List Char) := alt2or1 dayTwo (aVal? 1 9)

/-- Two-digit alternatives of the %H directive, pattern
2[0-3]|[0-1]backslash-d. -/
def hourTwo (a b : Char) : Option Nat :=
  if a = '2' then (aVal? 0 3 b).map (fun y => 20 + y)
  else if a = '0' ∨ a = '1' then (digitVal? b).map (fun y => 10 * (a.toNat - 48) + y)
  else none

/-- The %H directive of _strptime: 2[0-3]|[0-1]backslash-d|backslash-d;
the one-digit fallback accepts any Unicode decimal digit. -/
def pHour : List Char → Option (Nat × List Char) := alt2or1 hourTwo digitVal?

/-- Two-digit alternative of the %M directive, pattern
[0-5]backslash-d. -/
def minuteTwo (a b : Char) : Option Nat :=
  match aVal? 0 5 a, digitVal? b with
  | some x, some y => some (10 * x + y)
  | _, _ => none

/-- The %M directive of _strptime: [0-5]backslash-d|backslash-d. -/
def pMinute : List Char → Option (Nat × List Char) := alt2or1 minuteTwo digitVal?

/-- Two-digit alternatives of the %S directive, pattern
6[0-1]|[0-5]backslash-d (leap seconds are admitted here and rejected by
the datetime constructor). -/
def secondTwo (a b : Char) : Option Nat :=
  if a = '6' then (aVal? 0 1 b).map (fun y => 60 + y)
  else
    match aVal? 0 5 a, digitVal? b with
    | some x, some y => some (10 * x + y)
    | _, _ => none

/-- The %S directive of _strptime: 6[0-1]|[0-5]backslash-d|backslash-d. -/
def pSecond : List Char → Option (Nat × List Char) := alt2or1 secondTwo digitVal?

/-- Whitespace run: a blank in a strptime format string matches one or
more characters of the regular-expression class backslash-s. -/
def skipWs : List Char → Option (List Char)
  | [] => none
  | c :: r => if pySpace c then some (r.dropWhile pySpace) else none

/-- Up to n leading digits are dropped (fractional part of %z). -/
def dropDigits : Nat → List Char → List Char
  | 0, r => r
  | _ + 1, [] => []
  | n + 1, c :: t => if isDig c then dropDigits n t else c :: t

/-- Optional fractional-seconds part of the %z directive: a dot followed
by one to six digits, consumed when present. -/
def dropFrac (cs : List Char) : List Char :=
  match cs with
  | [] => []
  | c0 :: rest =>
    if c0 = '.' then
      match rest with
      | [] => cs
      | c :: _ => if isDig c then dropDigits 6 rest else cs
    else cs

/-- Optional seconds (with optional fraction) of the %z directive.  The
_strptime regular expression admits the seconds colon freely, but its
post-processing raises ValueError unless the colon is used consistently
with the hours-minutes separator ("Inconsistent use of :" or a failing
int conversion), so the seconds group is effectively accepted colon-led
exactly when the hours-minutes colon was present and digit-led exactly
when it was not; in every other case the parse of the whole string fails,
modelled here by consuming nothing so that the leftover fails the
trailing-data check of the %z-final format. -/
def pSecs (hadColon : Bool) (cs : List Char) : Nat × List Char :=
  let t := if hadColon then (if cs.head? = some ':' then cs.tail else []) else cs
  match t with
  | a :: b :: r =>
    (match aVal? 0 5 a, digitVal? b with
     | some x, some y => (10 * x + y, dropFrac r)
     | _, _ => (0, cs))
  | _ => (0, cs)

/-- Exactly the two minute digits of the %z directive, pattern
[0-5]backslash-d: an ASCII digit below six then any Unicode decimal
digit. -/
def pMM : List Char → Option (Nat × List Char)
  | a :: b :: r =>
    (match aVal? 0 5 a, digitVal? b with
     | some x, some y => some (10 * x + y, r)
     | _, _ => none)
  | _ => none

/-- The %z directive of strptime: Z, or a sign, two hour digits (written
backslash-d, so any Unicode decimal digits), an optional colon, two
minute digits of class [0-5]backslash-d, and optional seconds (with colon
use consistent with the hours-minutes separator, see pSecs) with an
optional fraction; the result is the UTC offset in seconds. -/
def pOffset (cs : List Char) : Option (Int × List Char) :=
  match cs with
  | [] => none
  | c :: r =>
    if c = 'Z' then some (0, r)
    else if c = '+' ∨ c = '-' then
      match p2exact r with
      | none => none
      | some (hhv, r1) =>
        let hadColon := decide (r1.head? = some ':')
        let r2 := if hadColon then r1.tail else r1
        match pMM r2 with
        | none => none
        | some (mmv, r3) =>
          some ((if c = '-' then (-1 : Int) else 1) * ((hhv : Int) * 3600 + (mmv : Int) * 60 + ((pSecs hadColon r3).1 : Int)),
                (pSecs hadColon r3).2)
    else none

def isLeap (y : Nat) : Bool := y % 4 = 0 && (decide (y % 100 ≠ 0) || y % 400 = 0)

/-- Length of a month in the proleptic Gregorian calendar, as validated by
the datetime constructor. -/
def daysInMonth (y m : Nat) : Nat :=
  if m = 1 then 31 else if m = 2 then (if isLeap y then 29 else 28)
  else if m = 3 then 31 else if m = 4 then 30 else if m = 5 then 31 else if m = 6 then 30
  else if m = 7 then 31 else if m = 8 then 31 else if m = 9 then 30 else if m = 10 then 31
  else if m = 11 then 30 else 31

/-- Model of datetime.strptime(s, "%Y-%m-%d %H:%M:%S %z"): the field
regular expressions of _strptime followed by the range validation of the
datetime and timezone constructors (year at least 1, day within the month,
seconds below sixty, offset strictly below twenty-four hours) and the
trailing-data check.  Returns none exactly when Python raises
ValueError. -/
def parseDateList (cs : List Char) : Option DateTimeTz :=
  match p4 cs with
  | none => none
  | some (y, r0) =>
  match expectCh '-' r0 with
  | none => none
  | some r1 =>
  match pMonth r1 with
  | none => none
  | some (mo, r2) =>
  match expectCh '-' r2 with
  | none => none
  | some r3 =>
  match pDay r3 with
  | none => none
  | some (dy, r4) =>
  match skipWs r4 with
  | none => none
  | some r5 =>
  match pHour r5 with
  | none => none
  | some (hh, r6) =>
  match expectCh ':' r6 with
  | none => none
  | some r7 =>
  match pMinute r7 with
  | none => none
  | some (mi, r8) =>
  match expectCh ':' r8 with
  | none => none
  | some r9 =>
  match pSecond r9 with
  | none => none
  | some (ss, r10) =>
  match skipWs r10 with
  | none => none
  | some r11 =>
  match pOffset r11 with
  | none => none
  | some (off, r12) =>
    if r12 = [] ∧ 1 ≤ y ∧ dy ≤ daysInMonth y mo ∧ ss ≤ 59 ∧ off.natAbs ≤ 86399 then
      some ⟨y, mo, dy, hh, mi, ss, off⟩
    else none

/-- Model of datetime.strptime on a string (see parseDateList). -/
def parseDate (s : String) : Option DateTimeTz := parseDateList s.data

/-- Model of str(commit_date.date()): the wall-clock calendar fields of
the parsed datetime, zero-padded; the UTC offset plays no part. -/
def dateStr (dt : DateTimeTz) : String :=
  String.mk (pad4 dt.year ++ '-' :: pad2 dt.month ++ '-' :: pad2 dt.day)

/-- Model of the comma-join of Python's str.join. -/
def joinComma : List String → String
  | [] => ""
  | [x] => x
  | x :: xs => x ++ "," ++ joinComma xs

/-- Whitespace stripped from both ends of a character list (the Unicode
whitespace set of str.strip and of the class backslash-s, pySpace). -/
def stripWs (cs : List Char) : List Char :=
  ((cs.dropWhile pySpace).reverse.dropWhile pySpace).reverse

/-- Model of Python's str.strip with no argument. -/
def pyStrip (s : String) : String := String.mk (stripWs s.data)

/-- Model of re.sub applied to the stripped fourth field
(keep_a_changelog.py, line 129): at most one leading opening parenthesis
and at most one trailing closing parenthesis are removed. -/
def stripParensList (cs : List Char) : List Char :=
  let s1 := match cs with
    | '(' :: r => r
    | _ => cs
  match s1.reverse with
  | ')' :: r => r.reverse
  | _ => s1

/-- String form of stripParensList. -/
def stripParens (s : String) : String := String.mk (stripParensList s.data)

/-- Model of Python's str.replace("tag: ", "") on a character list: every
occurrence of the five-character marker is removed, scanning left to
right and continuing after each removed occurrence. -/
def removeTagMarker : List Char → List Char
  | 't' :: 'a' :: 'g' :: ':' :: ' ' :: rest => removeTagMarker rest
  | c :: rest => c :: removeTagMarker rest
  | [] => []

/-- Model of tag.replace("tag: ", "") (keep_a_changelog.py, line 131). -/
def pyReplaceTag (s : String) : String := String.mk (removeTagMarker s.data)

/-- Embedding of the tag-extraction block of parse_git_logs
(keep_a_changelog.py, lines 124-136), applied to the non-empty fourth
field: strip, remove surrounding parentheses, split on commas, keep
non-blank entries stripped with every "tag: " marker removed, and retain
the semantic-version tags. -/
def extract_tags (field : String) : List String :=
  let tag_str := pyStrip field
  if tag_str = "" then []
  else
    let tag_str := stripParens tag_str
    let tags := (pySplit ',' tag_str).filterMap
      (fun tag => if pyStrip tag = "" then none else some (pyReplaceTag (pyStrip tag)))
    tags.filter (fun tag => is_semver_tag tag)

/-- Removal of one leading literal "tag: " marker, at most once, at the
start only (what the claim describes). -/
def dropTagMarkerOnce (s : String) : String :=
  match s.data with
  | 't' :: 'a' :: 'g' :: ':' :: ' ' :: r => String.mk r
  | _ => s

/-- Tag extraction as the claim words it: each comma entry is trimmed and
has one leading literal "tag: " marker removed, at most once, at the start
of the entry only. -/
def extract_tags_claim (field : String) : List String :=
  let t := stripParens (pyStrip field)
  ((pySplit ',' t).map (fun tag => dropTagMarkerOnce (pyStrip tag))).filter
    (fun tag => is_semver_tag tag)

/-- Tag extraction as the amended claim words it: each comma entry is
trimmed and every occurrence of the literal "tag: " marker in it is
removed. -/
def extract_tags_amended (field : String) : List String :=
  let t := stripParens (pyStrip field)
  ((pySplit ',' t).map (fun tag => pyReplaceTag (pyStrip tag))).filter
    (fun tag => is_semver_tag tag)

/-- Embedding of the per-line body of parse_git_logs (keep_a_changelog.py,
lines 105-144) for one non-empty line: positional indexing into the
pipe-split fields (an out-of-range index raises IndexError), date parsing
(failure raises the ValueError modelled as dateFormatError), tag
extraction, and construction of the CommitInfo. -/
def parseLine (line : String) : Except ParseErr CommitInfo :=
  let parts := pySplit '|' line
  if parts.length < 3 then .error .indexError
  else
    match parseDate (parts.getD 2 "") with
    | none => .error (.dateFormatError (parts.getD 2 ""))
    | some dt =>
      let tags := if 3 < parts.length ∧ parts.getD 3 "" ≠ "" then extract_tags (parts.getD 3 "") else []
      .ok ⟨parts.getD 0 "", parts.getD 1 "", dateStr dt, tags⟩

/-- Embedding of parse_git_logs (keep_a_changelog.py, lines 88-146): empty
lines are skipped, the remaining lines are parsed in order and the first
failure aborts the whole parse. -/
def parse_git_logs : List String → Except ParseErr (List CommitInfo)
  | [] => .ok []
  | line :: rest =>
    if line = "" then parse_git_logs rest
    else
      match parseLine line with
      | .error e => .error e
      | .ok c =>
        match parse_git_logs rest with
        | .error e => .error e
        | .ok cs => .ok (c :: cs)

/-- Per-record text of the changelog body (the loop of write_changelog,
keep_a_changelog.py, lines 181-185): a tagged record opens a heading made
of the comma-joined tags and the record's date, and every record
contributes one bullet with its message. -/
def changelogChunks : List CommitInfo → String
  | [] => ""
  | c :: rest =>
    (if 0 < c.tags.length then "\n## " ++ joinComma c.tags ++ " - " ++ c.date_str ++ "\n\n" else "")
      ++ ("- " ++ c.message ++ "\n")
      ++ changelogChunks rest

/-- Embedding of write_changelog (keep_a_changelog.py, lines 167-185):
none models the empty-input no-op in which no file is written; otherwise
the full text written to CHANGELOG.md is returned. -/
def write_changelog (commits : List CommitInfo) : Option String :=
  match commits with
  | [] => none
  | c :: rest =>
    some ("# CHANGELOG\n\n"
      ++ (if c.tags.length = 0 then "## Unreleased\n\n" else "")
      ++ changelogChunks (c :: rest))

/-- Embedding of main (keep_a_changelog.py, lines 200-204) downstream of
log acquisition: an error value models the fatal non-zero exit before any
write, ok none models the diagnostic-and-exit-0 path with no file
written, and ok (some text) models a successful run writing text. -/
def mainRun (lines : List String) : Except ParseErr (Option String) :=
  match parse_git_logs lines with
  | .error e => .error e
  | .ok commits => .ok (write_changelog commits)

/-- A raw git log line assembled from its first three fields, as consumed
by parse_git_logs. -/
def mkLine (hash msg date : String) : String := hash ++ "|" ++ msg ++ "|" ++ date

/-- Offset rendering sign followed by two-digit hours and minutes
(the ±HHMM shape). -/
def fmtOffset (sg : Bool) (oh om : Nat) : List Char :=
  (if sg then '+' else '-') :: (pad2 oh ++ pad2 om)

/-- Character list of a date string in the exact zero-padded shape
YYYY-MM-DD HH:MM:SS ±HHMM. -/
def fmtDTList (y mo dy hh mi ss : Nat) (sg : Bool) (oh om : Nat) : List Char :=
  pad4 y ++ ('-' :: (pad2 mo ++ ('-' :: (pad2 dy ++ (' ' :: (pad2 hh ++ (':' :: (pad2 mi
    ++ (':' :: (pad2 ss ++ (' ' :: fmtOffset sg oh om)))))))))))

/-- A date string in the exact zero-padded shape
YYYY-MM-DD HH:MM:SS ±HHMM. -/
def fmtDT (y mo dy hh mi ss : Nat) (sg : Bool) (oh om : Nat) : String :=
  String.mk (fmtDTList y mo dy hh mi ss sg oh om)

/-- The calendar-date portion YYYY-MM-DD of such a date string. -/
def fmtDate (y mo dy : Nat) : String :=
  String.mk (pad4 y ++ '-' :: pad2 mo ++ '-' :: pad2 dy)

/-- Days before the first of a month in a non-leap year. -/
def daysBeforeMonth (m : Nat) : Nat :=
  if m = 1 then 0 else if m = 2 then 31 else if m = 3 then 59 else if m = 4 then 90
  else if m = 5 then 120 else if m = 6 then 151 else if m = 7 then 181 else if m = 8 then 212
  else if m = 9 then 243 else if m = 10 then 273 else if m = 11 then 304 else 334

/-- Proleptic Gregorian ordinal of a calendar day (1-based, as in
Python's date.toordinal). -/
def ordinalDay (y m d : Nat) : Nat :=
  365 * (y - 1) + ((y - 1) / 4 - (y - 1) / 100 + (y - 1) / 400)
    + daysBeforeMonth m + (if 3 ≤ m ∧ isLeap y then 1 else 0) + d

/-- The instant denoted by a parsed datetime, in seconds, obtained by
subtracting the UTC offset from the wall-clock reading. -/
def instantSec (dt : DateTimeTz) : Int :=
  (ordinalDay dt.year dt.month dt.day : Int) * 86400
    + (dt.hour : Int) * 3600 + (dt.minute : Int) * 60 + (dt.second : Int) - dt.offSec

/-- Interleaving a separator between parts (the inverse of
splitOnChar). -/
def joinSep (sep : Char) : List (List Char) → List Char
  | [] => []
  | [x] => x
  | x :: xs => x ++ sep :: joinSep sep xs

end PyScripts

namespace PyScripts

/-! ### General helper lemmas about strings and list scanning -/

theorem mk_data (s : String) : String.mk s.data = s := rfl

theorem data_append (a b : String) : (a ++ b).data = a.data ++ b.data := rfl

theorem str_assoc (a b c : String) : a ++ b ++ c = a ++ (b ++ c) := by
  cases a; cases b; cases c
  exact congrArg String.mk (List.append_assoc ..)

theorem str_empty_append (a : String) : "" ++ a = a := by
  cases a; rfl

theorem tw_append {p : Char → Bool} {l r : List Char} (h : l.all p = true) :
    (l ++ r).takeWhile p = l ++ r.takeWhile p := by
  induction l with
  | nil => rfl
  | cons c t ih =>
    simp only [List.all_cons, Bool.and_eq_true] at h
    simp [List.takeWhile_cons, h.1, ih h.2]

theorem dw_append {p : Char → Bool} {l r : List Char} (h : l.all p = true) :
    (l ++ r).dropWhile p = r.dropWhile p := by
  induction l with
  | nil => rfl
  | cons c t ih =>
    simp only [List.all_cons, Bool.and_eq_true] at h
    simp [List.dropWhile_cons, h.1, ih h.2]

theorem tw_cons_false {p : Char → Bool} {c : Char} {r : List Char} (h : p c = false) :
    (c :: r).takeWhile p = [] := by
  simp [List.takeWhile_cons, h]

theorem dw_cons_false {p : Char → Bool} {c : Char} {r : List Char} (h : p c = false) :
    (c :: r).dropWhile p = c :: r := by
  simp [List.dropWhile_cons, h]

theorem splitOnChar_ne_nil (sep : Char) (l : List Char) : splitOnChar sep l ≠ [] := by
  induction l with
  | nil => simp [splitOnChar]
  | cons c t ih =>
    by_cases h : c = sep
    · simp [splitOnChar, h]
    · simp only [splitOnChar, if_neg h]
      cases hs : splitOnChar sep t with
      | nil => simp
      | cons r rs => simp

theorem splitOnChar_append {sep : Char} :
    ∀ {xs : List Char} (ys : List Char), (∀ c ∈ xs, ¬ c = sep) →
      splitOnChar sep (xs ++ sep :: ys) = xs :: splitOnChar sep ys := by
  intro xs
  induction xs with
  | nil => intro ys _; simp [splitOnChar]
  | cons c t ih =>
    intro ys h
    have hc : ¬ c = sep := h c (by simp)
    have ht := ih ys (fun d hd => h d (by simp [hd]))
    have ht' : splitOnChar sep (t.append (sep :: ys)) = t :: splitOnChar sep ys := ht
    simp only [List.cons_append, splitOnChar, if_neg hc, ht, ht']

theorem splitOnChar_no_sep {sep : Char} :
    ∀ {xs : List Char}, (∀ c ∈ xs, ¬ c = sep) → splitOnChar sep xs = [xs] := by
  intro xs
  induction xs with
  | nil => intro _; rfl
  | cons c t ih =>
    intro h
    have hc : ¬ c = sep := h c (by simp)
    have ht := ih (fun d hd => h d (by simp [hd]))
    simp only [splitOnChar, if_neg hc, ht]

theorem joinSep_split (sep : Char) (l : List Char) :
    joinSep sep (splitOnChar sep l) = l := by
  induction l with
  | nil => rfl
  | cons c t ih =>
    by_cases h : c = sep
    · simp only [splitOnChar, if_pos h]
      cases hs : splitOnChar sep t with
      | nil => exact absurd hs (splitOnChar_ne_nil sep t)
      | cons r rs =>
        rw [hs] at ih
        simp [joinSep, ih, h]
    · simp only [splitOnChar, if_neg h]
      cases hs : splitOnChar sep t with
      | nil => exact absurd hs (splitOnChar_ne_nil sep t)
      | cons r rs =>
        rw [hs] at ih
        cases rs with
        | nil => simpa [joinSep] using congrArg (c :: ·) ih
        | cons s ss =>
          simp only [joinSep] at ih ⊢
          simp [← ih]

theorem splitOnChar_parts {sep : Char} :
    ∀ {l : List Char} {p : List Char}, p ∈ splitOnChar sep l → ∀ c ∈ p, ¬ c = sep := by
  intro l
  induction l with
  | nil =>
    intro p hp
    simp [splitOnChar] at hp
    simp [hp]
  | cons x xs ih =>
    intro p hp
    by_cases h : x = sep
    · rw [show splitOnChar sep (x :: xs) = [] :: splitOnChar sep xs by simp [splitOnChar, h]] at hp
      rcases List.mem_cons.mp hp with h1 | h1
      · simp [h1]
      · exact ih h1
    · rcases hs : splitOnChar sep xs with _ | ⟨r, rs⟩
      · exact absurd hs (splitOnChar_ne_nil sep xs)
      · rw [show splitOnChar sep (x :: xs) = (x :: r) :: rs by simp [splitOnChar, h, hs]] at hp
        rcases List.mem_cons.mp hp with h1 | h1
        · subst h1
          intro c hc
          rcases List.mem_cons.mp hc with h2 | h2
          · simp [h2, h]
          · exact ih (by rw [hs]; exact List.mem_cons_self r rs) c h2
        · exact ih (by rw [hs]; exact List.mem_cons_of_mem r h1)

end PyScripts

namespace PyScripts

/-! ### Digit-character lemmas -/

theorem digitVal?_digitChar {n : Nat} (h : n < 10) : digitVal? (digitChar n) = some n := by
  interval_cases n <;> decide

theorem digitChar_not_pySpace (n : Nat) : pySpace (digitChar n) = false := by
  unfold digitChar; (repeat' split) <;> decide

theorem digitChar_ne_pipe (n : Nat) : ¬ digitChar n = '|' := by
  unfold digitChar; (repeat' split) <;> decide

theorem digitChar_ne_colon (n : Nat) : ¬ digitChar n = ':' := by
  unfold digitChar; (repeat' split) <;> decide

/-! ### Claim C8: the PR-title checker accepts exactly the ASCII titles -/

/-- Claim C8: check_pr_title exits 0 exactly when every character of the
title lies in the ASCII range 0 to 127 (the empty title included), and
exits 1 exactly when some character lies outside it. -/
theorem c8_ascii_title (t : String) :
    (check_pr_title (some t) = 0 ↔ ∀ c ∈ t.data, c.toNat ≤ 127) ∧
    (check_pr_title (some t) = 1 ↔ ¬ ∀ c ∈ t.data, c.toNat ≤ 127) := by
  have hcc : check_character_set t = true ↔ ∀ c ∈ t.data, c.toNat ≤ 127 := by
    unfold check_character_set
    simp only [List.isEmpty_eq_true, List.filter_eq_nil_iff, decide_eq_true_eq]
    constructor
    · intro hh c hc
      have := hh c hc
      omega
    · intro hh c hc
      have := hh c hc
      omega
  simp only [check_pr_title]
  by_cases hb : check_character_set t = true
  · rw [if_pos hb]
    exact ⟨iff_of_true rfl (hcc.mp hb), iff_of_false (by decide) (not_not_intro (hcc.mp hb))⟩
  · have hnot : ¬ ∀ c ∈ t.data, c.toNat ≤ 127 := fun hall => hb (hcc.mpr hall)
    rw [if_neg hb]
    exact ⟨iff_of_false (by decide) hnot, iff_of_true rfl hnot⟩

/-- Witness for c8_ascii_title at a concrete ASCII title. -/
theorem c8_ascii_title_witness : check_pr_title (some "hello world") = 0 :=
  (c8_ascii_title "hello world").1.mpr (by decide)

/-! ### Claim C4: the grouping scenario of the renderer -/

/-- Claim C4: on the newest-first record list of the grouping scenario the
renderer emits the title, the Unreleased section holding the first
untagged record, then the tagged section heading followed by its own
bullet and the following untagged bullet, exactly as quoted. -/
theorem c4_grouping_scenario (h1 h2 h3 d1 d3 : String) :
    write_changelog [⟨h1, "fix bug", d1, []⟩, ⟨h2, "release", "2024-02-01", ["v1.1.0"]⟩,
        ⟨h3, "add feature", d3, []⟩] =
      some "# CHANGELOG\n\n## Unreleased\n\n- fix bug\n\n## v1.1.0 - 2024-02-01\n\n- release\n- add feature\n" :=
  rfl

/-! ### Claim C10: two blank lines after the title when the first record is tagged -/

/-- Claim C10: when the newest record carries tags, no Unreleased heading
is emitted and the first release heading's leading blank line lands right
after the title's own trailing blank line, so the document starts with the
title line followed by two consecutive blank lines before the first
heading. -/
theorem c10_tagged_first_record (c : CommitInfo) (rest : List CommitInfo) (h : c.tags ≠ []) :
    write_changelog (c :: rest) =
      some ("# CHANGELOG\n\n\n## " ++ joinComma c.tags ++ " - " ++ c.date_str ++ "\n\n"
        ++ "- " ++ c.message ++ "\n" ++ changelogChunks rest) := by
  have hlen : ¬ c.tags.length = 0 := by simpa [List.length_eq_zero] using h
  have hpos : 0 < c.tags.length := Nat.pos_of_ne_zero hlen
  simp only [write_changelog, changelogChunks, if_neg hlen, if_pos hpos, str_assoc,
    str_empty_append]
  rw [← str_assoc, show ("# CHANGELOG\n\n" : String) ++ "\n## " = "# CHANGELOG\n\n\n## " from by decide]

/-- Witness for c10_tagged_first_record at a concrete tagged record. -/
theorem c10_tagged_first_record_witness :
    write_changelog [⟨"h", "release", "2024-02-01", ["v1.1.0"]⟩] =
      some ("# CHANGELOG\n\n\n## " ++ joinComma ["v1.1.0"] ++ " - " ++ "2024-02-01" ++ "\n\n"
        ++ "- " ++ "release" ++ "\n" ++ changelogChunks []) :=
  c10_tagged_first_record ⟨"h", "release", "2024-02-01", ["v1.1.0"]⟩ [] (by decide)

/-! ### Claim C6: empty commit list is a soft no-op -/

/-- Claim C6: when the parsed commit list is empty the run writes no file
and is not an error: mainRun returns the ok-and-no-file value (Python
prints a diagnostic and falls through to a normal exit 0). -/
theorem c6_empty_input :
    (∀ lines, parse_git_logs lines = .ok [] → mainRun lines = .ok none) ∧
      write_changelog [] = none := by
  refine ⟨fun lines h => ?_, rfl⟩
  unfold mainRun
  rw [h]
  rfl

/-- Witness for c6_empty_input on input consisting of one empty line. -/
theorem c6_empty_input_witness : mainRun [""] = .ok none :=
  c6_empty_input.1 [""] rfl

/-! ### Claim C9: positional indexing needs at least three fields -/

/-- Claim C9: a non-empty line with fewer than three pipe-separated fields
makes parse_git_logs fail with the IndexError of positional indexing, a
failure distinct from the DateFormatError of the documented taxonomy; with
at least three fields that failure cannot happen. -/
theorem c9_field_indexing (line : String) (hne : ¬ line = "") :
    ((pySplit '|' line).length < 3 → parse_git_logs [line] = .error .indexError) ∧
    (3 ≤ (pySplit '|' line).length → ¬ parse_git_logs [line] = .error .indexError) ∧
    (∀ s, ¬ ParseErr.indexError = ParseErr.dateFormatError s) := by
  refine ⟨fun hlt => ?_, fun hge => ?_, fun s h => by cases h⟩
  · simp [parse_git_logs, parseLine, hne, hlt]
  · simp only [parse_git_logs, if_neg hne]
    unfold parseLine
    rw [if_neg (Nat.not_lt.mpr hge)]
    cases hpd : parseDate ((pySplit '|' line).getD 2 "") with
    | none => simp
    | some dt => simp [parse_git_logs]

/-- Witness for c9_field_indexing: a one-field line raises the index
failure, a three-field line does not. -/
theorem c9_field_indexing_witness :
    parse_git_logs ["abc"] = .error .indexError ∧
      ¬ parse_git_logs ["a|b|2024-01-15 10:00:00 +0000"] = .error .indexError :=
  ⟨(c9_field_indexing "abc" (by decide)).1 (by decide),
   (c9_field_indexing "a|b|2024-01-15 10:00:00 +0000" (by decide)).2.1 (by decide)⟩

/-! ### Counterexamples for claims C1, C2, C3, C5 -/

/-- Counterexample to claim C1: the two quoted date strings denote the
same instant yet parse to different CommitRecord dates, so truncation to a
date happens on the wall-clock fields, not after offset normalization. -/
theorem c1_counterexample :
    parse_git_logs ["a|m|2024-01-15 23:30:00 +0000"] = .ok [⟨"a", "m", "2024-01-15", []⟩] ∧
    parse_git_logs ["a|m|2024-01-16 00:30:00 +0100"] = .ok [⟨"a", "m", "2024-01-16", []⟩] ∧
    parseDate "2024-01-15 23:30:00 +0000" = some ⟨2024, 1, 15, 23, 30, 0, 0⟩ ∧
    parseDate "2024-01-16 00:30:00 +0100" = some ⟨2024, 1, 16, 0, 30, 0, 3600⟩ ∧
    instantSec ⟨2024, 1, 15, 23, 30, 0, 0⟩ = instantSec ⟨2024, 1, 16, 0, 30, 0, 3600⟩ ∧
    ¬ dateStr ⟨2024, 1, 15, 23, 30, 0, 0⟩ = dateStr ⟨2024, 1, 16, 0, 30, 0, 3600⟩ :=
  ⟨rfl, rfl, rfl, rfl, by decide, by decide⟩

/-- Counterexample to claim C2, in two parts.  First, a semver body
followed by one newline is retained by is_semver_tag (Python's dollar
anchor matches before a final newline) although the entire string does
not match the grammar.  Second, a tag carrying a non-ASCII Unicode
decimal digit (here ARABIC-INDIC DIGIT FIVE) inside a numeric component
is retained (the class written backslash-d in the pattern is
Unicode-aware) although neither the string nor the string less a final
newline matches the grammar. -/
theorem c2_counterexample :
    (is_semver_tag "1.2.3\n" = true ∧ semver_grammar "1.2.3\n" = false) ∧
      (is_semver_tag "1٥.2.3" = true ∧ semver_grammar "1٥.2.3" = false ∧
        ¬ "1٥.2.3".data.getLast? = some '\n') := by
  decide

/-- Counterexample to claim C3: the code removes every occurrence of
"tag: " (str.replace), not one leading occurrence; on this field the code
retains a tag that the claimed prefix-once trimming would reject. -/
theorem c3_counterexample :
    extract_tags "(tag: tag: 1.2.3)" = ["1.2.3"] ∧
      extract_tags_claim "(tag: tag: 1.2.3)" = [] := by
  decide

end PyScripts

namespace PyScripts

/-! ### Claim C3: tag extraction (amended) -/

theorem extract_tags_filterMap_eq (l : List String) :
    ((l.filterMap (fun tag => if pyStrip tag = "" then none else some (pyReplaceTag (pyStrip tag)))).filter
        (fun tag => is_semver_tag tag)) =
      ((l.map (fun tag => pyReplaceTag (pyStrip tag))).filter (fun tag => is_semver_tag tag)) := by
  induction l with
  | nil => rfl
  | cons x xs ih =>
    by_cases hx : pyStrip x = ""
    · have hsem : is_semver_tag (pyReplaceTag "") = false := by decide
      simp [List.filterMap_cons, List.map_cons, List.filter_cons, hx, hsem, ih]
    · simp [List.filterMap_cons, List.map_cons, List.filter_cons, hx, ih]

/-- Amended claim C3: the fourth field is stripped, loses one surrounding
parenthesis pair, is split on commas, and each entry is trimmed and has
every occurrence of the literal "tag: " marker removed (not only a single
leading prefix) before the semantic-version filter is applied. -/
theorem c3_amended_extraction (field : String) :
    extract_tags field = extract_tags_amended field := by
  simp only [extract_tags, extract_tags_amended]
  by_cases h : pyStrip field = ""
  · rw [if_pos h, h]
    decide
  · rw [if_neg h]
    exact extract_tags_filterMap_eq _

/-! ### Claim C7: hash and message are the first two fields verbatim -/

theorem pySplit_four (h m d t : String)
    (hh : ∀ c ∈ h.data, ¬ c = '|') (hm : ∀ c ∈ m.data, ¬ c = '|')
    (hd : ∀ c ∈ d.data, ¬ c = '|') (ht : ∀ c ∈ t.data, ¬ c = '|') :
    pySplit '|' (h ++ "|" ++ m ++ "|" ++ d ++ "|" ++ t) = [h, m, d, t] := by
  unfold pySplit
  have hdata : (h ++ "|" ++ m ++ "|" ++ d ++ "|" ++ t).data
      = h.data ++ '|' :: (m.data ++ '|' :: (d.data ++ '|' :: t.data)) := by
    simp [data_append, List.append_assoc]
  rw [hdata, splitOnChar_append _ hh, splitOnChar_append _ hm, splitOnChar_append _ hd,
    splitOnChar_no_sep ht]
  simp [mk_data]

/-- Claim C7: a four-field line whose fields carry no pipe character and
whose date field parses is turned into a CommitRecord whose hash and
message are the first and second fields verbatim. -/
theorem c7_hash_message_verbatim (h m d t : String)
    (hh : ∀ c ∈ h.data, ¬ c = '|') (hm : ∀ c ∈ m.data, ¬ c = '|')
    (hd : ∀ c ∈ d.data, ¬ c = '|') (ht : ∀ c ∈ t.data, ¬ c = '|')
    (dt : DateTimeTz) (hdate : parseDate d = some dt) :
    ∃ rec, parseLine (h ++ "|" ++ m ++ "|" ++ d ++ "|" ++ t) = .ok rec ∧
      rec.commit_hash = h ∧ rec.message = m := by
  simp only [parseLine, pySplit_four h m d t hh hm hd ht]
  simp only [List.getD_cons_succ, List.getD_cons_zero]
  rw [if_neg (by simp), hdate]
  exact ⟨_, rfl, rfl, rfl⟩

/-- Witness for c7_hash_message_verbatim at a concrete line. -/
theorem c7_hash_message_verbatim_witness :
    ∃ rec, parseLine ("abc123" ++ "|" ++ "fix: a bug" ++ "|" ++ "2024-01-15 10:00:00 +0000" ++ "|" ++ "") = .ok rec ∧
      rec.commit_hash = "abc123" ∧ rec.message = "fix: a bug" :=
  c7_hash_message_verbatim "abc123" "fix: a bug" "2024-01-15 10:00:00 +0000" ""
    (by decide) (by decide) (by decide) (by decide) ⟨2024, 1, 15, 10, 0, 0, 0⟩ rfl

/-! ### Claim C5: rejected date fields abort the run (amended) -/

end PyScripts

namespace PyScripts

/-! ### Stepwise strptime lemmas on zero-padded input -/

theorem expectCh_same (c : Char) (r : List Char) : expectCh c (c :: r) = some r := by
  simp [expectCh]

theorem p4_pad4 {y : Nat} (hy : y ≤ 9999) (r : List Char) : p4 (pad4 y ++ r) = some (y, r) := by
  have h1 : y / 1000 < 10 := by omega
  have h2 : y / 100 % 10 < 10 := by omega
  have h3 : y / 10 % 10 < 10 := by omega
  have h4 : y % 10 < 10 := by omega
  have hv : 1000 * (y / 1000) + 100 * (y / 100 % 10) + 10 * (y / 10 % 10) + y % 10 = y := by omega
  simp only [pad4, List.cons_append, List.nil_append, p4, digitVal?_digitChar h1,
    digitVal?_digitChar h2, digitVal?_digitChar h3, digitVal?_digitChar h4, hv]

theorem pMonth_pad2 {mo : Nat} (h1 : 1 ≤ mo) (h2 : mo ≤ 12) (r : List Char) :
    pMonth (pad2 mo ++ r) = some (mo, r) := by
  interval_cases mo <;> rfl

theorem pDay_pad2 {dy : Nat} (h1 : 1 ≤ dy) (h2 : dy ≤ 31) (r : List Char) :
    pDay (pad2 dy ++ r) = some (dy, r) := by
  interval_cases dy <;> rfl

theorem pHour_pad2 {hh : Nat} (h2 : hh ≤ 23) (r : List Char) :
    pHour (pad2 hh ++ r) = some (hh, r) := by
  interval_cases hh <;> rfl

theorem pMinute_pad2 {mi : Nat} (h2 : mi ≤ 59) (r : List Char) :
    pMinute (pad2 mi ++ r) = some (mi, r) := by
  interval_cases mi <;> rfl

theorem pSecond_pad2 {ss : Nat} (h2 : ss ≤ 59) (r : List Char) :
    pSecond (pad2 ss ++ r) = some (ss, r) := by
  interval_cases ss <;> rfl

theorem pMM_pad2 {om : Nat} (h2 : om ≤ 59) (r : List Char) :
    pMM (pad2 om ++ r) = some (om, r) := by
  interval_cases om <;> rfl

theorem p2exact_pad2 {v : Nat} (hv : v ≤ 99) (r : List Char) :
    p2exact (pad2 v ++ r) = some (v, r) := by
  have ha : v / 10 < 10 := by omega
  have hb : v % 10 < 10 := by omega
  have hvv : 10 * (v / 10) + v % 10 = v := by omega
  simp only [pad2, List.cons_append, List.nil_append, p2exact, digitVal?_digitChar ha,
    digitVal?_digitChar hb, hvv]

theorem skipWs_space_pad2 (v : Nat) (r : List Char) :
    skipWs (' ' :: (pad2 v ++ r)) = some (pad2 v ++ r) := by
  simp only [skipWs, pad2, List.cons_append, List.nil_append]
  rw [if_pos (by decide), dw_cons_false (digitChar_not_pySpace (v / 10))]

theorem skipWs_space_off (sg : Bool) (oh om : Nat) :
    skipWs (' ' :: fmtOffset sg oh om) = some (fmtOffset sg oh om) := by
  cases sg <;> rfl

theorem pOffset_fmt (sg : Bool) {oh om : Nat} (ho : oh ≤ 99) (hm : om ≤ 59) :
    pOffset (fmtOffset sg oh om)
      = some ((if sg then 1 else -1) * ((oh : Int) * 3600 + (om : Int) * 60), []) := by
  have hmm2 : pMM (pad2 om) = some (om, []) := by
    have h := pMM_pad2 hm ([] : List Char)
    rwa [List.append_nil] at h
  have hni : ¬ ((pad2 om).head? = some ':') := by
    simp only [pad2, List.head?_cons]
    intro h
    exact digitChar_ne_colon (om / 10) (Option.some.inj h)
  cases sg <;> simp [fmtOffset, pOffset, p2exact_pad2 ho, hni, hmm2, pSecs]

theorem daysInMonth_le (y m : Nat) : daysInMonth y m ≤ 31 := by
  unfold daysInMonth
  (repeat' split) <;> omega

theorem parseDateList_fmt {y mo dy hh mi ss oh om : Nat} (sg : Bool)
    (hy1 : 1 ≤ y) (hy2 : y ≤ 9999) (hmo1 : 1 ≤ mo) (hmo2 : mo ≤ 12)
    (hd1 : 1 ≤ dy) (hd2 : dy ≤ daysInMonth y mo) (hhh : hh ≤ 23) (hmi : mi ≤ 59)
    (hss : ss ≤ 59) (ho : oh ≤ 23) (hm : om ≤ 59) :
    parseDateList (fmtDTList y mo dy hh mi ss sg oh om)
      = some ⟨y, mo, dy, hh, mi, ss, (if sg then 1 else -1) * ((oh : Int) * 3600 + (om : Int) * 60)⟩ := by
  have hd31 : dy ≤ 31 := le_trans hd2 (daysInMonth_le y mo)
  have hnat : ((if sg then (1 : Int) else -1) * ((oh : Int) * 3600 + (om : Int) * 60)).natAbs ≤ 86399 := by
    cases sg <;> simp <;> omega
  simp only [fmtDTList, parseDateList, p4_pad4 hy2, expectCh_same,
    pMonth_pad2 hmo1 hmo2, pDay_pad2 hd1 hd31, pHour_pad2 hhh, pMinute_pad2 hmi,
    pSecond_pad2 hss,
    skipWs_space_pad2, skipWs_space_off, pOffset_fmt sg (le_trans ho (by norm_num)) hm]
  rw [if_pos ⟨trivial, hy1, hd2, hss, hnat⟩]

end PyScripts

namespace PyScripts

/-! ### Claim C1: the date is the literal date portion (amended) -/

theorem no_pipe_cons {c0 : Char} {r : List Char} (h0 : ¬ c0 = '|') (hr : ∀ c ∈ r, ¬ c = '|') :
    ∀ c ∈ c0 :: r, ¬ c = '|' := by
  intro c hc
  rcases List.mem_cons.mp hc with h | h
  · subst h; exact h0
  · exact hr c h

theorem no_pipe_pad2 {n : Nat} {r : List Char} (hr : ∀ c ∈ r, ¬ c = '|') :
    ∀ c ∈ pad2 n ++ r, ¬ c = '|' := by
  intro c hc
  rcases List.mem_append.mp hc with h | h
  · simp only [pad2, List.mem_cons, List.not_mem_nil, or_false] at h
    rcases h with h | h <;> (subst h; exact digitChar_ne_pipe _)
  · exact hr c h

theorem no_pipe_pad4 {n : Nat} {r : List Char} (hr : ∀ c ∈ r, ¬ c = '|') :
    ∀ c ∈ pad4 n ++ r, ¬ c = '|' := by
  intro c hc
  rcases List.mem_append.mp hc with h | h
  · simp only [pad4, List.mem_cons, List.not_mem_nil, or_false] at h
    rcases h with h | h | h | h <;> (subst h; exact digitChar_ne_pipe _)
  · exact hr c h

theorem no_pipe_fmtOffset (sg : Bool) (oh om : Nat) : ∀ c ∈ fmtOffset sg oh om, ¬ c = '|' := by
  have base : ∀ c ∈ ([] : List Char), ¬ c = '|' := by simp
  have hOm : ∀ c ∈ pad2 om ++ ([] : List Char), ¬ c = '|' := no_pipe_pad2 base
  rw [List.append_nil] at hOm
  have hOh : ∀ c ∈ pad2 oh ++ pad2 om, ¬ c = '|' := no_pipe_pad2 hOm
  intro c hc
  simp only [fmtOffset, List.mem_cons] at hc
  rcases hc with h | h
  · subst h; cases sg <;> decide
  · exact hOh c h

theorem fmtDTList_no_pipe (y mo dy hh mi ss : Nat) (sg : Bool) (oh om : Nat) :
    ∀ c ∈ fmtDTList y mo dy hh mi ss sg oh om, ¬ c = '|' := by
  show ∀ c ∈ pad4 y ++ ('-' :: (pad2 mo ++ ('-' :: (pad2 dy ++ (' ' :: (pad2 hh ++ (':' :: (pad2 mi
    ++ (':' :: (pad2 ss ++ (' ' :: fmtOffset sg oh om))))))))))), ¬ c = '|'
  exact no_pipe_pad4 (no_pipe_cons (by decide) (no_pipe_pad2 (no_pipe_cons (by decide)
    (no_pipe_pad2 (no_pipe_cons (by decide) (no_pipe_pad2 (no_pipe_cons (by decide)
      (no_pipe_pad2 (no_pipe_cons (by decide) (no_pipe_pad2 (no_pipe_cons (by decide)
        (no_pipe_fmtOffset sg oh om))))))))))))

theorem pySplit_three (h m d : String)
    (hh : ∀ c ∈ h.data, ¬ c = '|') (hm : ∀ c ∈ m.data, ¬ c = '|')
    (hd : ∀ c ∈ d.data, ¬ c = '|') :
    pySplit '|' (h ++ "|" ++ m ++ "|" ++ d) = [h, m, d] := by
  unfold pySplit
  have hdata : (h ++ "|" ++ m ++ "|" ++ d).data = h.data ++ '|' :: (m.data ++ '|' :: d.data) := by
    simp [data_append, List.append_assoc]
  rw [hdata, splitOnChar_append _ hh, splitOnChar_append _ hm, splitOnChar_no_sep hd]
  simp [mk_data]

theorem parse_single_fmt (hash msg : String) {y mo dy hh mi ss : Nat} (sg : Bool) {oh om : Nat}
    (hhp : ∀ c ∈ hash.data, ¬ c = '|') (hmp : ∀ c ∈ msg.data, ¬ c = '|')
    (hy1 : 1 ≤ y) (hy2 : y ≤ 9999) (hmo1 : 1 ≤ mo) (hmo2 : mo ≤ 12)
    (hd1 : 1 ≤ dy) (hd2 : dy ≤ daysInMonth y mo) (hhh : hh ≤ 23) (hmi : mi ≤ 59)
    (hss : ss ≤ 59) (ho : oh ≤ 23) (hm : om ≤ 59) :
    parse_git_logs [hash ++ "|" ++ msg ++ "|" ++ fmtDT y mo dy hh mi ss sg oh om]
      = .ok [⟨hash, msg, fmtDate y mo dy, []⟩] := by
  have hdp : ∀ c ∈ (fmtDT y mo dy hh mi ss sg oh om).data, ¬ c = '|' :=
    fmtDTList_no_pipe y mo dy hh mi ss sg oh om
  have hsplit := pySplit_three hash msg _ hhp hmp hdp
  have hne : ¬ (hash ++ "|" ++ msg ++ "|" ++ fmtDT y mo dy hh mi ss sg oh om) = "" := by
    intro h0
    rw [h0] at hsplit
    have h1 := congrArg List.length hsplit
    simp [pySplit, splitOnChar] at h1
  simp only [parse_git_logs, if_neg hne]
  simp only [parseLine, hsplit, List.getD_cons_succ, List.getD_cons_zero]
  rw [if_neg (by simp)]
  simp only [show parseDate (fmtDT y mo dy hh mi ss sg oh om)
      = parseDateList (fmtDTList y mo dy hh mi ss sg oh om) from rfl,
    parseDateList_fmt sg hy1 hy2 hmo1 hmo2 hd1 hd2 hhh hmi hss ho hm]
  rw [if_neg (show ¬ (3 < ([hash, msg, fmtDT y mo dy hh mi ss sg oh om] : List String).length
      ∧ ([] : List String).getD 0 "" ≠ "") from by simp)]
  rfl

/-- Amended claim C1: a line whose date field has the exact zero-padded
shape YYYY-MM-DD HH:MM:SS then sign HHMM (with in-range values) parses to
a CommitRecord whose date is precisely the literal date portion of that
field, whatever the offset: the offset is consumed and validated but no
timezone normalization precedes the truncation to a calendar date, so the
two offsets here produce identical dates. -/
theorem c1_amended_literal_date (hash msg : String) (y mo dy hh mi ss : Nat)
    (sg1 sg2 : Bool) (oh1 om1 oh2 om2 : Nat)
    (hhp : ∀ c ∈ hash.data, ¬ c = '|') (hmp : ∀ c ∈ msg.data, ¬ c = '|')
    (hy1 : 1 ≤ y) (hy2 : y ≤ 9999) (hmo1 : 1 ≤ mo) (hmo2 : mo ≤ 12)
    (hd1 : 1 ≤ dy) (hd2 : dy ≤ daysInMonth y mo) (hhh : hh ≤ 23) (hmi : mi ≤ 59)
    (hss : ss ≤ 59) (ho1 : oh1 ≤ 23) (hm1 : om1 ≤ 59) (ho2 : oh2 ≤ 23) (hm2 : om2 ≤ 59) :
    parse_git_logs [hash ++ "|" ++ msg ++ "|" ++ fmtDT y mo dy hh mi ss sg1 oh1 om1]
        = .ok [⟨hash, msg, fmtDate y mo dy, []⟩] ∧
      parse_git_logs [hash ++ "|" ++ msg ++ "|" ++ fmtDT y mo dy hh mi ss sg2 oh2 om2]
        = .ok [⟨hash, msg, fmtDate y mo dy, []⟩] :=
  ⟨parse_single_fmt hash msg sg1 hhp hmp hy1 hy2 hmo1 hmo2 hd1 hd2 hhh hmi hss ho1 hm1,
   parse_single_fmt hash msg sg2 hhp hmp hy1 hy2 hmo1 hmo2 hd1 hd2 hhh hmi hss ho2 hm2⟩

/-- Witness for c1_amended_literal_date on a concrete line with two
different offsets. -/
theorem c1_amended_literal_date_witness :
    parse_git_logs ["a" ++ "|" ++ "m" ++ "|" ++ fmtDT 2024 1 15 23 30 0 true 0 0]
        = .ok [⟨"a", "m", fmtDate 2024 1 15, []⟩] ∧
      parse_git_logs ["a" ++ "|" ++ "m" ++ "|" ++ fmtDT 2024 1 15 23 30 0 true 1 0]
        = .ok [⟨"a", "m", fmtDate 2024 1 15, []⟩] :=
  c1_amended_literal_date "a" "m" 2024 1 15 23 30 0 true true 0 0 1 0
    (by decide) (by decide) (by norm_num) (by norm_num) (by norm_num) (by norm_num)
    (by norm_num) (by decide) (by norm_num) (by norm_num) (by norm_num) (by norm_num)
    (by norm_num) (by norm_num) (by norm_num)

end PyScripts

namespace PyScripts

/-! ### Kit for the semver scanner / grammar equivalence -/

theorem all_append_of {p : Char → Bool} {l r : List Char} (hl : l.all p = true)
    (hr : r.all p = true) : (l ++ r).all p = true := by
  simp [List.all_append, hl, hr]

theorem all_cons_of {p : Char → Bool} {c : Char} {l : List Char} (hc : p c = true)
    (hl : l.all p = true) : (c :: l).all p = true := by
  simp [hc, hl]

theorem all_mono {p q : Char → Bool} (hpq : ∀ c, p c = true → q c = true) {l : List Char}
    (hl : l.all p = true) : l.all q = true := by
  rw [List.all_eq_true] at hl ⊢
  exact fun x hx => hpq x (hl x hx)

theorem mem_ne_of_all {p : Char → Bool} {l : List Char} (h : l.all p = true) {sep : Char}
    (hsep : p sep = false) : ∀ c ∈ l, ¬ c = sep := by
  intro c hc heq
  subst heq
  rw [List.all_eq_true] at h
  rw [h c hc] at hsep
  cases hsep

theorem imp_ne_of_pred {p : Char → Bool} {sep : Char} (hsep : p sep = false) :
    ∀ c, p c = true → (!decide (c = sep)) = true := by
  intro c hc
  by_cases he : c = sep
  · subst he; rw [hc] at hsep; cases hsep
  · simp [he]

theorem tw_self {p : Char → Bool} {l : List Char} (h : l.all p = true) : l.takeWhile p = l := by
  have h2 := @tw_append p l [] h
  simpa using h2

theorem dw_self {p : Char → Bool} {l : List Char} (h : l.all p = true) : l.dropWhile p = [] := by
  have h2 := @dw_append p l [] h
  simpa using h2

theorem all_takeWhile (p : Char → Bool) (l : List Char) : (l.takeWhile p).all p = true := by
  induction l with
  | nil => rfl
  | cons c t ih =>
    by_cases hp : p c = true
    · simp [List.takeWhile_cons, hp, ih]
    · simp [List.takeWhile_cons, hp]

theorem dropWhile_head_not {p : Char → Bool} {l : List Char} {c : Char} {r : List Char}
    (h : l.dropWhile p = c :: r) : p c = false := by
  induction l with
  | nil => cases h
  | cons a t ih =>
    rw [List.dropWhile_cons] at h
    by_cases hp : p a = true
    · rw [if_pos hp] at h
      exact ih h
    · rw [if_neg hp] at h
      injection h with h1 h2
      subst h1
      simpa using hp

theorem isNz_isDig {c : Char} (h : isNz c = true) : isDig c = true := by
  simp only [isNz, decide_eq_true_eq] at h
  simp only [isDig, digitVal?]
  rw [if_pos (by omega : c.toNat < 0x660), if_pos (show 48 ≤ c.toNat ∧ c.toNat ≤ 57 by omega)]
  rfl

theorem digA_isDig {c : Char} (h : isDigA c = true) : isDig c = true := by
  simp only [isDigA, decide_eq_true_eq] at h
  simp only [isDig, digitVal?]
  rw [if_pos (by omega : c.toNat < 0x660), if_pos (show 48 ≤ c.toNat ∧ c.toNat ≤ 57 by omega)]
  rfl

theorem isDig_ascii {c : Char} (h : c.toNat ≤ 127) : isDig c = isDigA c := by
  simp only [isDig, isDigA, digitVal?]
  rw [if_pos (by omega : c.toNat < 0x660)]
  by_cases h2 : 48 ≤ c.toNat ∧ c.toNat ≤ 57
  · rw [if_pos h2]
    simp [h2]
  · rw [if_neg h2]
    simp [h2]

theorem dig_preChar {c : Char} (h : isDig c = true) : isPreChar c = true := by
  simp [isPreChar, h]

theorem alHy_preChar {c : Char} (h : isAlHy c = true) : isPreChar c = true := by
  simp [isPreChar, h]

theorem idchar_preChar {c : Char} (h : isIdChar c = true) : isPreChar c = true := by
  simp only [isIdChar, Bool.or_eq_true] at h
  rcases h with h | h
  · exact dig_preChar (digA_isDig h)
  · exact alHy_preChar h

theorem numOk_all_dig {ds : List Char} (h : numOk ds = true) : ds.all isDig = true := by
  cases ds with
  | nil => cases h
  | cons c t =>
    simp only [numOk, Bool.or_eq_true, Bool.and_eq_true, decide_eq_true_eq,
      List.isEmpty_eq_true] at h
    rcases h with ⟨hc, ht⟩ | ⟨hc, ht⟩
    · subst hc; subst ht; decide
    · exact all_cons_of (isNz_isDig hc) ht

theorem head_not_dig_cons {c : Char} {t : List Char} (h : isDig c = false) :
    ∀ ch r', (c :: t : List Char) = ch :: r' → isDig ch = false := by
  intro ch r' he
  injection he with h1 h2
  subst h1
  exact h

theorem scanNum_some {cs r : List Char} (h : scanNum cs = some r) :
    cs = cs.takeWhile isDig ++ r ∧ numOk (cs.takeWhile isDig) = true ∧ r = cs.dropWhile isDig := by
  unfold scanNum at h
  by_cases hn : numOk (cs.takeWhile isDig) = true
  · rw [if_pos hn] at h
    refine ⟨?_, hn, (Option.some.inj h).symm⟩
    rw [← Option.some.inj h]
    exact (List.takeWhile_append_dropWhile isDig cs).symm
  · rw [if_neg hn] at h
    cases h

theorem scanNum_exact {ds r : List Char} (hds : numOk ds = true)
    (hr : ∀ ch r', r = ch :: r' → isDig ch = false) : scanNum (ds ++ r) = some r := by
  have hall : ds.all isDig = true := numOk_all_dig hds
  unfold scanNum
  rw [tw_append hall, dw_append hall]
  cases r with
  | nil => simp [hds]
  | cons c r' =>
    rw [tw_cons_false (hr c r' rfl), dw_cons_false (hr c r' rfl), List.append_nil]
    simp [hds]

theorem expectCh_some {c : Char} {l r : List Char} (h : expectCh c l = some r) : l = c :: r := by
  cases l with
  | nil => cases h
  | cons d t =>
    simp only [expectCh] at h
    by_cases hd : d = c
    · rw [if_pos hd] at h
      rw [hd, Option.some.inj h]
    · rw [if_neg hd] at h
      cases h

theorem scanCore_some {cs rest : List Char} (h : scanCore cs = some rest) :
    ∃ a b c, cs = a ++ '.' :: (b ++ '.' :: (c ++ rest)) ∧ numOk a = true ∧ numOk b = true
      ∧ numOk c = true ∧ (∀ ch r', rest = ch :: r' → isDig ch = false) := by
  unfold scanCore at h
  cases h1 : scanNum cs with
  | none => simp only [h1] at h; cases h
  | some r1 =>
    simp only [h1] at h
    cases h2 : expectCh '.' r1 with
    | none => simp only [h2] at h; cases h
    | some r2 =>
      simp only [h2] at h
      cases h3 : scanNum r2 with
      | none => simp only [h3] at h; cases h
      | some r3 =>
        simp only [h3] at h
        cases h4 : expectCh '.' r3 with
        | none => simp only [h4] at h; cases h
        | some r4 =>
          simp only [h4] at h
          obtain ⟨e1, n1, d1⟩ := scanNum_some h1
          obtain ⟨e3, n3, d3⟩ := scanNum_some h3
          obtain ⟨e5, n5, d5⟩ := scanNum_some h
          obtain ⟨A, hA⟩ : ∃ x, List.takeWhile isDig cs = x := ⟨_, rfl⟩
          obtain ⟨B, hB⟩ : ∃ x, List.takeWhile isDig r2 = x := ⟨_, rfl⟩
          obtain ⟨C, hC⟩ : ∃ x, List.takeWhile isDig r4 = x := ⟨_, rfl⟩
          rw [hA] at e1 n1
          rw [hB] at e3 n3
          rw [hC] at e5 n5
          refine ⟨A, B, C, ?_, n1, n3, n5, ?_⟩
          · rw [e1, expectCh_some h2, e3, expectCh_some h4, e5]
          · intro ch r' hr
            rw [d5] at hr
            exact dropWhile_head_not hr

theorem scanCore_exact {a b c rest : List Char} (ha : numOk a = true) (hb : numOk b = true)
    (hc : numOk c = true) (hrest : ∀ ch r', rest = ch :: r' → isDig ch = false) :
    scanCore (a ++ '.' :: (b ++ '.' :: (c ++ rest))) = some rest := by
  have hdot : ∀ (x : List Char) ch r', ('.' :: x : List Char) = ch :: r' → isDig ch = false :=
    fun x => head_not_dig_cons (by decide)
  simp only [scanCore, scanNum_exact ha (hdot _), expectCh_same, scanNum_exact hb (hdot _),
    scanNum_exact hc hrest]

theorem splitFirst_none {sep : Char} {cs : List Char}
    (h : (splitFirst sep cs).2 = none) : cs = (splitFirst sep cs).1 := by
  unfold splitFirst at h ⊢
  cases hd : cs.dropWhile (fun c => !decide (c = sep)) with
  | nil =>
    conv_lhs => rw [← List.takeWhile_append_dropWhile (fun c => !decide (c = sep)) cs]
    rw [hd, List.append_nil]
  | cons c0 r => rw [hd] at h; cases h

theorem splitFirst_some {sep : Char} {cs r : List Char}
    (h : (splitFirst sep cs).2 = some r) : cs = (splitFirst sep cs).1 ++ sep :: r := by
  unfold splitFirst at h ⊢
  cases hd : cs.dropWhile (fun c => !decide (c = sep)) with
  | nil => rw [hd] at h; cases h
  | cons c0 r0 =>
    rw [hd] at h
    have hc0 : (!decide (c0 = sep)) = false := dropWhile_head_not hd
    have he : c0 = sep := by simpa using hc0
    have hr0 : r0 = r := Option.some.inj h
    conv_lhs => rw [← List.takeWhile_append_dropWhile (fun c => !decide (c = sep)) cs]
    rw [hd, he, hr0]

theorem splitFirst_fst_all (sep : Char) (cs : List Char) :
    (splitFirst sep cs).1.all (fun c => !decide (c = sep)) = true := by
  unfold splitFirst
  exact all_takeWhile _ cs

theorem chunksOk_all {q : Char → Bool} {p : List Char → Bool}
    (hp : ∀ ch, p ch = true → ch.all q = true) {region : List Char}
    (h : chunksOk p region = true) :
    (splitOnChar '.' region).all (fun ch => ch.all q) = true := by
  unfold chunksOk at h
  rw [List.all_eq_true] at h ⊢
  exact fun x hx => hp x (h x hx)

theorem preChunkOk_preChar : ∀ ch, preChunkOk ch = true → ch.all isPreChar = true := by
  intro ch h
  simp only [preChunkOk, Bool.or_eq_true] at h
  rcases h with h | h
  · exact all_mono (fun c hc => dig_preChar hc) (numOk_all_dig h)
  · rcases hd : ch.dropWhile isDig with _ | ⟨l, ws⟩
    · rw [hd] at h; cases h
    · rw [hd] at h
      rw [Bool.and_eq_true] at h
      have hch : ch = ch.takeWhile isDig ++ (l :: ws) := by
        conv_lhs => rw [← List.takeWhile_append_dropWhile isDig ch]
        rw [hd]
      rw [hch]
      exact all_append_of (all_mono (fun c hc => dig_preChar hc) (all_takeWhile isDig ch))
        (all_cons_of (alHy_preChar h.1) (all_mono (fun c hc => idchar_preChar hc) h.2))

theorem buildChunkOk_idchar : ∀ ch, buildChunkOk ch = true → ch.all isIdChar = true := by
  intro ch h
  simp only [buildChunkOk, Bool.and_eq_true] at h
  exact h.1

theorem region_all_preDot : ∀ {region : List Char},
    (splitOnChar '.' region).all (fun ch => ch.all isPreChar) = true →
      region.all isPreDot = true := by
  intro region
  induction region with
  | nil => intro _; rfl
  | cons c rest ih =>
    intro h
    by_cases hc : c = '.'
    · rw [show splitOnChar '.' (c :: rest) = [] :: splitOnChar '.' rest by
        simp [splitOnChar, hc]] at h
      simp only [List.all_cons, Bool.and_eq_true] at h
      refine all_cons_of ?_ (ih h.2)
      subst hc; decide
    · rcases hs : splitOnChar '.' rest with _ | ⟨r, rs⟩
      · exact absurd hs (splitOnChar_ne_nil _ _)
      · rw [show splitOnChar '.' (c :: rest) = (c :: r) :: rs by simp [splitOnChar, hc, hs]] at h
        simp only [List.all_cons, Bool.and_eq_true] at h
        obtain ⟨⟨hc1, hr⟩, hrs⟩ := h
        have hrest : (splitOnChar '.' rest).all (fun ch => ch.all isPreChar) = true := by
          rw [hs]
          simp [List.all_cons, hr, hrs]
        exact all_cons_of (by simp [isPreDot, hc1]) (ih hrest)

end PyScripts

namespace PyScripts

theorem splitFirst_no_sep {sep : Char} {xs : List Char}
    (hxs : xs.all (fun c => !decide (c = sep)) = true) : splitFirst sep xs = (xs, none) := by
  unfold splitFirst
  rw [tw_self hxs, dw_self hxs]

theorem splitFirst_with_sep {sep : Char} {xs : List Char} (ys : List Char)
    (hxs : xs.all (fun c => !decide (c = sep)) = true) :
    splitFirst sep (xs ++ sep :: ys) = (xs, some ys) := by
  have hsep : (fun c => !decide (c = sep)) sep = false := by simp
  unfold splitFirst
  rw [tw_append hxs, dw_append hxs, tw_cons_false hsep, dw_cons_false hsep, List.append_nil]

theorem splitOnChar_three {a b c : List Char} (hA : ∀ x ∈ a, ¬ x = '.') (hB : ∀ x ∈ b, ¬ x = '.')
    (hC : ∀ x ∈ c, ¬ x = '.') :
    splitOnChar '.' (a ++ '.' :: (b ++ '.' :: c)) = [a, b, c] := by
  rw [splitOnChar_append _ hA, splitOnChar_append _ hB, splitOnChar_no_sep hC]

theorem core_all_ne {a b c : List Char} (hA : a.all isDig = true) (hB : b.all isDig = true)
    (hC : c.all isDig = true) {sep : Char} (hd : isDig sep = false) (hdot : ¬ ('.' : Char) = sep) :
    (a ++ '.' :: (b ++ '.' :: c)).all (fun x => !decide (x = sep)) = true := by
  refine all_append_of (all_mono (imp_ne_of_pred hd) hA)
    (all_cons_of (by simp [hdot]) (all_append_of (all_mono (imp_ne_of_pred hd) hB)
      (all_cons_of (by simp [hdot]) (all_mono (imp_ne_of_pred hd) hC))))

theorem core3_cases {l : List (List Char)}
    (h : (match l with | [a, b, c] => numOk a && numOk b && numOk c | _ => false) = true) :
    ∃ a b c, l = [a, b, c] ∧ numOk a = true ∧ numOk b = true ∧ numOk c = true := by
  rcases l with _ | ⟨a, _ | ⟨b, _ | ⟨c, _ | ⟨d, t⟩⟩⟩⟩
  · cases h
  · cases h
  · cases h
  · simp only [Bool.and_eq_true] at h
    exact ⟨a, b, c, rfl, h.1.1, h.1.2, h.2⟩
  · cases h

theorem scan_imp_grammar {cs : List Char} (h : scanAfterV cs = true) :
    semver_grammarU_core cs = true := by
  unfold scanAfterV at h
  cases hsc : scanCore cs with
  | none => simp only [hsc] at h; cases h
  | some rest =>
    simp only [hsc] at h
    obtain ⟨a, b, c, hcs, ha, hb, hc, hhead⟩ := scanCore_some hsc
    have hA := numOk_all_dig ha
    have hB := numOk_all_dig hb
    have hC := numOk_all_dig hc
    have hmemA : ∀ x ∈ a, ¬ x = '.' := mem_ne_of_all hA (by decide)
    have hmemB : ∀ x ∈ b, ¬ x = '.' := mem_ne_of_all hB (by decide)
    have hmemC : ∀ x ∈ c, ¬ x = '.' := mem_ne_of_all hC (by decide)
    have hnp_core := core_all_ne hA hB hC (show isDig '+' = false by decide) (by decide)
    have hnm_core := core_all_ne hA hB hC (show isDig '-' = false by decide) (by decide)
    cases rest with
    | nil =>
      rw [List.append_nil] at hcs
      rw [hcs]
      simp only [semver_grammarU_core, splitFirst_no_sep hnp_core, splitFirst_no_sep hnm_core,
        splitOnChar_three hmemA hmemB hmemC]
      simp [ha, hb, hc]
    | cons c0 r =>
      by_cases hminus : c0 = '-'
      · subst hminus
        simp only [scanTail, if_true] at h
        rw [Bool.and_eq_true] at h
        obtain ⟨hpre, htail2⟩ := h
        cases hr2 : r.dropWhile isPreDot with
        | nil =>
          have hrR : r = r.takeWhile isPreDot := by
            conv_lhs => rw [← List.takeWhile_append_dropWhile isPreDot r]
            rw [hr2, List.append_nil]
          rw [← hrR] at hpre
          have hrAll : r.all isPreDot = true := by
            rw [hrR]
            exact all_takeWhile _ _
          have hre : a ++ '.' :: (b ++ '.' :: (c ++ '-' :: r))
              = (a ++ '.' :: (b ++ '.' :: c)) ++ '-' :: r := by
            simp [List.append_assoc]
          rw [hcs, hre]
          have hnp_r : r.all (fun x => !decide (x = '+')) = true :=
            all_mono (imp_ne_of_pred (show isPreDot '+' = false by decide)) hrAll
          have hnp_all : ((a ++ '.' :: (b ++ '.' :: c)) ++ '-' :: r).all
              (fun x => !decide (x = '+')) = true :=
            all_append_of hnp_core (all_cons_of (by decide) hnp_r)
          simp only [semver_grammarU_core, splitFirst_no_sep hnp_all,
            splitFirst_with_sep r hnm_core, splitOnChar_three hmemA hmemB hmemC]
          simp [ha, hb, hc, hpre]
        | cons c2 r3 =>
          rw [hr2] at htail2
          rw [Bool.and_eq_true, decide_eq_true_eq] at htail2
          obtain ⟨hc2, hbuild⟩ := htail2
          subst hc2
          have hrR : r = r.takeWhile isPreDot ++ '+' :: r3 := by
            conv_lhs => rw [← List.takeWhile_append_dropWhile isPreDot r]
            rw [hr2]
          have hRAll : (r.takeWhile isPreDot).all isPreDot = true := all_takeWhile _ _
          have hre : a ++ '.' :: (b ++ '.' :: (c ++ '-' :: (r.takeWhile isPreDot ++ '+' :: r3)))
              = ((a ++ '.' :: (b ++ '.' :: c)) ++ '-' :: r.takeWhile isPreDot) ++ '+' :: r3 := by
            simp [List.append_assoc]
          rw [hcs, hrR, hre]
          have hnp_R : (r.takeWhile isPreDot).all (fun x => !decide (x = '+')) = true :=
            all_mono (imp_ne_of_pred (show isPreDot '+' = false by decide)) hRAll
          have hnp_main : ((a ++ '.' :: (b ++ '.' :: c)) ++ '-' :: r.takeWhile isPreDot).all
              (fun x => !decide (x = '+')) = true :=
            all_append_of hnp_core (all_cons_of (by decide) hnp_R)
          simp only [semver_grammarU_core, splitFirst_with_sep r3 hnp_main,
            splitFirst_with_sep (r.takeWhile isPreDot) hnm_core,
            splitOnChar_three hmemA hmemB hmemC]
          simp [ha, hb, hc, hpre, hbuild]
      · by_cases hplus : c0 = '+'
        · subst hplus
          simp [scanTail] at h
          have hre : a ++ '.' :: (b ++ '.' :: (c ++ '+' :: r))
              = (a ++ '.' :: (b ++ '.' :: c)) ++ '+' :: r := by
            simp [List.append_assoc]
          rw [hcs, hre]
          simp only [semver_grammarU_core, splitFirst_with_sep r hnp_core,
            splitFirst_no_sep hnm_core, splitOnChar_three hmemA hmemB hmemC]
          simp [ha, hb, hc, h]
        · simp only [scanTail] at h
          rw [if_neg hminus, if_neg hplus] at h
          cases h

theorem grammar_imp_scan {cs : List Char} (h : semver_grammarU_core cs = true) :
    scanAfterV cs = true := by
  simp only [semver_grammarU_core, Bool.and_eq_true] at h
  obtain ⟨⟨h3, hPre⟩, hBuild⟩ := h
  obtain ⟨a, b, c, hsplit, ha, hb, hc⟩ := core3_cases h3
  have hK1 : (splitFirst '-' (splitFirst '+' cs).1).1 = a ++ '.' :: (b ++ '.' :: c) := by
    have hj := joinSep_split '.' ((splitFirst '-' (splitFirst '+' cs).1).1)
    rw [hsplit] at hj
    simpa [joinSep] using hj.symm
  cases hk2 : (splitFirst '-' (splitFirst '+' cs).1).2 with
  | none =>
    have hMain : (splitFirst '+' cs).1 = (splitFirst '-' (splitFirst '+' cs).1).1 :=
      splitFirst_none hk2
    cases hm2 : (splitFirst '+' cs).2 with
    | none =>
      have hcs : cs = (splitFirst '+' cs).1 := splitFirst_none hm2
      rw [hcs, hMain, hK1]
      unfold scanAfterV
      have hsc := @scanCore_exact a b c [] ha hb hc (fun ch r' hr => by cases hr)
      rw [List.append_nil] at hsc
      simp only [hsc]
      rfl
    | some bb =>
      have hcs : cs = (splitFirst '+' cs).1 ++ '+' :: bb := splitFirst_some hm2
      simp only [hm2] at hBuild
      rw [hcs, hMain, hK1]
      have hre : (a ++ '.' :: (b ++ '.' :: c)) ++ '+' :: bb
          = a ++ '.' :: (b ++ '.' :: (c ++ '+' :: bb)) := by
        simp [List.append_assoc]
      rw [hre]
      unfold scanAfterV
      simp only [scanCore_exact ha hb hc (head_not_dig_cons (show isDig '+' = false by decide))]
      simp [scanTail, hBuild]
  | some p =>
    have hMain : (splitFirst '+' cs).1
        = (splitFirst '-' (splitFirst '+' cs).1).1 ++ '-' :: p := splitFirst_some hk2
    simp only [hk2] at hPre
    have hpAll : p.all isPreDot = true :=
      region_all_preDot (chunksOk_all preChunkOk_preChar hPre)
    cases hm2 : (splitFirst '+' cs).2 with
    | none =>
      have hcs : cs = (splitFirst '+' cs).1 := splitFirst_none hm2
      rw [hcs, hMain, hK1]
      have hre : (a ++ '.' :: (b ++ '.' :: c)) ++ '-' :: p
          = a ++ '.' :: (b ++ '.' :: (c ++ '-' :: p)) := by
        simp [List.append_assoc]
      rw [hre]
      unfold scanAfterV
      simp only [scanCore_exact ha hb hc (head_not_dig_cons (show isDig '-' = false by decide))]
      simp [scanTail, tw_self hpAll, dw_self hpAll, hPre]
    | some bb =>
      have hcs : cs = (splitFirst '+' cs).1 ++ '+' :: bb := splitFirst_some hm2
      simp only [hm2] at hBuild
      rw [hcs, hMain, hK1]
      have hre : ((a ++ '.' :: (b ++ '.' :: c)) ++ '-' :: p) ++ '+' :: bb
          = a ++ '.' :: (b ++ '.' :: (c ++ '-' :: (p ++ '+' :: bb))) := by
        simp [List.append_assoc]
      rw [hre]
      unfold scanAfterV
      simp only [scanCore_exact ha hb hc (head_not_dig_cons (show isDig '-' = false by decide))]
      have htw : (p ++ '+' :: bb).takeWhile isPreDot = p := by
        rw [tw_append hpAll, tw_cons_false (by decide : isPreDot '+' = false), List.append_nil]
      have hdw : (p ++ '+' :: bb).dropWhile isPreDot = '+' :: bb := by
        rw [dw_append hpAll, dw_cons_false (by decide : isPreDot '+' = false)]
      simp [scanTail, htw, hdw, hPre, hBuild]

theorem scan_eq_grammar (cs : List Char) : scanAfterV cs = semver_grammarU_core cs := by
  cases h1 : scanAfterV cs with
  | true => exact (scan_imp_grammar h1).symm
  | false =>
    cases h2 : semver_grammarU_core cs with
    | false => rfl
    | true =>
      rw [grammar_imp_scan h2] at h1
      cases h1

end PyScripts

namespace PyScripts

theorem data_mk (l : List Char) : (String.mk l).data = l := rfl

/-! ### On ASCII strings the source grammar and the specification grammar agree -/

theorem char_eq_of_toNat {c d : Char} (h : c.toNat = d.toNat) : c = d := by
  apply Char.ext
  exact UInt32.ext h

theorem all_congr {α : Type} {p q : α → Bool} :
    ∀ {l : List α}, (∀ c ∈ l, p c = q c) → l.all p = l.all q := by
  intro l
  induction l with
  | nil => intro _; rfl
  | cons c t ih =>
    intro h
    simp only [List.all_cons, h c (by simp), ih (fun d hd => h d (by simp [hd]))]

theorem splitOnChar_mem_sub {sep : Char} :
    ∀ {l : List Char} {p : List Char}, p ∈ splitOnChar sep l → ∀ c ∈ p, c ∈ l := by
  intro l
  induction l with
  | nil =>
    intro p hp
    simp [splitOnChar] at hp
    simp [hp]
  | cons x xs ih =>
    intro p hp
    by_cases h : x = sep
    · rw [show splitOnChar sep (x :: xs) = [] :: splitOnChar sep xs by simp [splitOnChar, h]] at hp
      rcases List.mem_cons.mp hp with h1 | h1
      · simp [h1]
      · exact fun c hc => List.mem_cons_of_mem x (ih h1 c hc)
    · rcases hs : splitOnChar sep xs with _ | ⟨r, rs⟩
      · exact absurd hs (splitOnChar_ne_nil sep xs)
      · rw [show splitOnChar sep (x :: xs) = (x :: r) :: rs by simp [splitOnChar, h, hs]] at hp
        rcases List.mem_cons.mp hp with h1 | h1
        · subst h1
          intro c hc
          rcases List.mem_cons.mp hc with h2 | h2
          · simp [h2]
          · exact List.mem_cons_of_mem x
              (ih (by rw [hs]; exact List.mem_cons_self r rs) c h2)
        · exact fun c hc => List.mem_cons_of_mem x
            (ih (by rw [hs]; exact List.mem_cons_of_mem r h1) c hc)

theorem splitFirst_fst_mem {sep : Char} {cs : List Char} {c : Char}
    (h : c ∈ (splitFirst sep cs).1) : c ∈ cs := by
  unfold splitFirst at h
  exact (List.takeWhile_sublist _).subset h

theorem splitFirst_snd_mem {sep : Char} {cs r : List Char} (h2 : (splitFirst sep cs).2 = some r)
    {c : Char} (h : c ∈ r) : c ∈ cs := by
  rw [splitFirst_some h2]
  simp [h]

theorem stripV_mem {cs : List Char} {c : Char} (h : c ∈ stripV cs) : c ∈ cs := by
  cases cs with
  | nil => exact absurd h (List.not_mem_nil c)
  | cons x t =>
    simp only [stripV] at h
    by_cases hx : x = 'v'
    · rw [if_pos hx] at h
      exact List.mem_cons_of_mem x h
    · rw [if_neg hx] at h
      exact h

theorem numOk_ascii {ds : List Char} (h : ∀ c ∈ ds, c.toNat ≤ 127) : numOk ds = numOkA ds := by
  cases ds with
  | nil => rfl
  | cons c t =>
    have ht : t.all isDig = t.all isDigA :=
      all_congr (fun d hd => isDig_ascii (h d (List.mem_cons_of_mem c hd)))
    by_cases h0 : c = '0'
    · subst h0
      cases t with
      | nil => decide
      | cons d t2 =>
        have h1 : isNz '0' = false := by decide
        have h2 : isDigA '0' = true := by decide
        simp [numOk, numOkA, h1, h2]
    · have hcn : c.toNat ≠ 48 := fun he => h0 (char_eq_of_toNat (he.trans rfl))
      have hnz : isNz c = isDigA c := by
        simp only [isNz, isDigA]
        rw [decide_eq_decide]
        omega
      simp [numOk, numOkA, ht, hnz, h0]

theorem bool_eq_of_iff {a b : Bool} (h : a = true ↔ b = true) : a = b := by
  cases a <;> cases b <;> simp_all

theorem preChunkOk_ascii {ds : List Char} (h : ∀ c ∈ ds, c.toNat ≤ 127) :
    preChunkOk ds = preChunkOkA ds := by
  have hdig : ds.all isDig = ds.all isDigA := all_congr (fun d hd => isDig_ascii (h d hd))
  have hnum : numOk ds = numOkA ds := numOk_ascii h
  apply bool_eq_of_iff
  constructor
  · intro hp
    simp only [preChunkOk, Bool.or_eq_true] at hp
    simp only [preChunkOkA, Bool.and_eq_true, Bool.or_eq_true]
    rcases hp with hp | hp
    · have hA : ds.all isDigA = true := by rw [← hdig]; exact numOk_all_dig hp
      have hne : ¬ ds.isEmpty = true := by
        cases ds
        · cases hp
        · simp
      refine ⟨⟨all_mono (fun d hd => by simp [isIdChar, hd]) hA, by simpa using hne⟩, ?_⟩
      right
      rw [← hnum]
      exact hp
    · rcases hd : ds.dropWhile isDig with _ | ⟨l, ws⟩
      · rw [hd] at hp; cases hp
      · rw [hd] at hp
        rw [Bool.and_eq_true] at hp
        have hch : ds = ds.takeWhile isDig ++ (l :: ws) := by
          conv_lhs => rw [← List.takeWhile_append_dropWhile isDig ds]
          rw [hd]
        have hlnd : isDig l = false := dropWhile_head_not hd
        have hlmem : l ∈ ds := by
          rw [hch]
          exact List.mem_append_right _ (List.mem_cons_self l ws)
        have htwA : (ds.takeWhile isDig).all isIdChar = true := by
          rw [List.all_eq_true]
          intro d hd2
          have hddig : isDig d = true := (List.all_eq_true.mp (all_takeWhile isDig ds)) d hd2
          have hmem : d ∈ ds := (List.takeWhile_sublist _).subset hd2
          rw [isDig_ascii (h d hmem)] at hddig
          simp [isIdChar, hddig]
        have hall : ds.all isIdChar = true := by
          rw [hch]
          exact all_append_of htwA (all_cons_of (by simp [isIdChar, hp.1]) hp.2)
        refine ⟨⟨hall, ?_⟩, Or.inl ?_⟩
        · rw [hch]
          simp
        · have hAf : ds.all isDigA = false := by
            cases hA : ds.all isDigA
            · rfl
            · exfalso
              have := (List.all_eq_true.mp hA) l hlmem
              rw [digA_isDig this] at hlnd
              cases hlnd
          simp [hAf]
  · intro hp
    simp only [preChunkOkA, Bool.and_eq_true, Bool.or_eq_true] at hp
    obtain ⟨⟨hid, hne⟩, hrest⟩ := hp
    simp only [preChunkOk, Bool.or_eq_true]
    by_cases hall : ds.all isDigA = true
    · rcases hrest with hcon | hnumA
      · rw [hall] at hcon
        cases hcon
      · left
        rw [hnum]
        exact hnumA
    · rcases hd : ds.dropWhile isDig with _ | ⟨l, ws⟩
      · exfalso
        apply hall
        rw [← hdig, List.all_eq_true]
        exact fun d hd2 => List.dropWhile_eq_nil_iff.mp hd d hd2
      · right
        have hlnd : isDig l = false := dropWhile_head_not hd
        have hsub : ∀ c ∈ l :: ws, c ∈ ds := by
          intro c hc
          rw [← hd] at hc
          exact (List.dropWhile_sublist _).subset hc
        have hlid : isIdChar l = true :=
          (List.all_eq_true.mp hid) l (hsub l (List.mem_cons_self l ws))
        have hlal : isAlHy l = true := by
          simp only [isIdChar, Bool.or_eq_true] at hlid
          rcases hlid with hlid | hlid
          · rw [digA_isDig hlid] at hlnd
            cases hlnd
          · exact hlid
        have hws : ws.all isIdChar = true := by
          rw [List.all_eq_true]
          exact fun d hd2 => (List.all_eq_true.mp hid) d (hsub d (List.mem_cons_of_mem l hd2))
        simp [hlal, hws]

theorem chunksOk_pre_ascii {region : List Char} (h : ∀ c ∈ region, c.toNat ≤ 127) :
    chunksOk preChunkOk region = chunksOk preChunkOkA region := by
  unfold chunksOk
  exact all_congr
    (fun piece hpiece => preChunkOk_ascii (fun c hc => h c (splitOnChar_mem_sub hpiece c hc)))

theorem grammar_core_ascii {cs : List Char} (h : ∀ c ∈ cs, c.toNat ≤ 127) :
    semver_grammarU_core cs = semver_grammar_core cs := by
  have hm1 : ∀ c ∈ (splitFirst '+' cs).1, c.toNat ≤ 127 :=
    fun c hc => h c (splitFirst_fst_mem hc)
  have hk1 : ∀ c ∈ (splitFirst '-' (splitFirst '+' cs).1).1, c.toNat ≤ 127 :=
    fun c hc => hm1 c (splitFirst_fst_mem hc)
  have e2 : (match (splitFirst '-' (splitFirst '+' cs).1).2 with
      | none => true
      | some p => chunksOk preChunkOk p)
    = (match (splitFirst '-' (splitFirst '+' cs).1).2 with
      | none => true
      | some p => chunksOk preChunkOkA p) := by
    cases hk2 : (splitFirst '-' (splitFirst '+' cs).1).2 with
    | none => rfl
    | some p =>
      exact chunksOk_pre_ascii (fun c hc => hm1 c (splitFirst_snd_mem hk2 hc))
  have hmem : ∀ p ∈ splitOnChar '.' ((splitFirst '-' (splitFirst '+' cs).1).1),
      ∀ x ∈ p, x.toNat ≤ 127 :=
    fun p hp x hx => hk1 x (splitOnChar_mem_sub hp x hx)
  simp only [semver_grammarU_core, semver_grammar_core]
  rw [e2]
  rcases hK : splitOnChar '.' ((splitFirst '-' (splitFirst '+' cs).1).1)
    with _ | ⟨a, _ | ⟨b, _ | ⟨c2, _ | ⟨d, t⟩⟩⟩⟩
  · rfl
  · rfl
  · rfl
  · rw [hK] at hmem
    have ea := numOk_ascii (hmem a (by simp))
    have eb := numOk_ascii (hmem b (by simp))
    have ec := numOk_ascii (hmem c2 (by simp))
    simp only [ea, eb, ec]
  · rfl

theorem grammarU_ascii {s : String} (h : ∀ c ∈ s.data, c.toNat ≤ 127) :
    semver_grammarU s = semver_grammar s :=
  grammar_core_ascii (fun c hc => h c (stripV_mem hc))

/-- Amended claim C2: is_semver_tag retains a string if and only if the
entire string matches the semantic-version grammar the source pattern
defines, or the string is such a match followed by exactly one trailing
newline (the dollar anchor of Python's re also matches just before a
final newline).  The source grammar differs from the grammar worded by
the specification only where the pattern writes the Unicode-aware class
backslash-d, there admitting any Unicode decimal digit; on strings of
ASCII characters the two grammars coincide, and the eight quoted examples
behave as the claim lists them. -/
theorem c2_amended_grammar :
    (∀ s : String, is_semver_tag s = true ↔
        (semver_grammarU s = true ∨
          (s.data.getLast? = some '\n' ∧ semver_grammarU (String.mk s.data.dropLast) = true))) ∧
      (∀ s : String, (∀ c ∈ s.data, c.toNat ≤ 127) → semver_grammarU s = semver_grammar s) ∧
      is_semver_tag "v1.2.3" = true ∧ is_semver_tag "1.2.3" = true ∧
      is_semver_tag "1.2.3-rc.1" = true ∧ is_semver_tag "1.2.3+build.5" = true ∧
      is_semver_tag "1.2" = false ∧ is_semver_tag "v1.2.3.4" = false ∧
      is_semver_tag "release-1.2.3" = false ∧ is_semver_tag "1.02.3" = false := by
  refine ⟨fun s => ?_, fun s h => grammarU_ascii h, by decide, by decide, by decide, by decide,
    by decide, by decide, by decide, by decide⟩
  have h1 : semverScan s.data = semver_grammarU_core (stripV s.data) :=
    scan_eq_grammar (stripV s.data)
  have h2 : semverScan s.data.dropLast = semver_grammarU_core (stripV s.data.dropLast) :=
    scan_eq_grammar (stripV s.data.dropLast)
  simp only [is_semver_tag, h1, h2, semver_grammarU, data_mk]
  cases hL : s.data.getLast? with
  | none => simp
  | some c =>
    by_cases hc : c = '\n'
    · subst hc
      simp [Bool.or_eq_true, Bool.and_eq_true]
    · simp [hc]

/-- Witness for c2_amended_grammar at a concrete retained tag. -/
theorem c2_amended_grammar_witness : is_semver_tag "v1.2.3" = true :=
  (c2_amended_grammar.1 "v1.2.3").mpr (Or.inl (by decide))

end PyScripts
